import Mathlib

/-!
Gap encoder and symbol queue of `mrcomplex.c`.

A shallow embedding of the queue (`BufferSpace`), of the gap encoder
(`MemorySpace`, `update_memory_space`), of the renderer
(`convert_to_base36`, `print_mixed_radix_form`) and of the driver
(`process_symbols`, `read_file_and_encode`) of `src/mrcomplex.c`, followed by
the properties proved about them.

Modelling conventions.

* A C array is a function from its index to the stored value together with the
  declared size of the array.  A store whose index lies outside the declared
  size does not land in the array: `store` leaves the function as it is.  In
  the code such a store is undefined behaviour and in practice lands on the
  neighbouring words (`values[2000]` is the word of `last_position`,
  `values[2001]` that of `count`, `values[2002]` the first entry of the next
  number line); the embedding does not describe that.
* `int` counters that only ever count upwards from zero (`count`, `head`,
  `tail`, `order_count`) are natural numbers; `int` values that can hold `-1`
  (`last_position`, the entries of `values` and of `symbol_order`) and
  `current_step` are integers.  Arithmetic is exact; the code's `int` overflows
  beyond `INT_MAX`.
* A symbol is a byte value `0..255`.  The code holds it in a `char` and uses
  `(int)symbol` as array index; where `char` is signed this is the byte value
  only for the bytes `0..127` (`symbol_index`).
* `update_defined` collects the conditions under which a call of
  `update_memory_space` stays inside its arrays and inside the range of `int`;
  `run_defined` says so of every call of a run.  The embedding describes the
  code for such calls, and the statements about recorded sequences carry these
  conditions.  Where a call leaves them, the statements say that the call is
  not defined and speak at most of `count` after the first store behind
  `values`, which the code increments all the same.
* `print_mixed_radix_form` is the list of the calls of the curses library it
  makes, and `none` when one of its reads falls outside its array.
-/

namespace MRComplex

set_option autoImplicit false
set_option linter.unusedVariables false

/-! ## Constants -/

/-- The constant `#define BUFFER_SIZE 256`. -/
def BUFFER_SIZE : Nat := 256

/-- The constant `#define SYMBOL_RANGE 256`. -/
def SYMBOL_RANGE : Nat := 256

/-- The constant `#define MAX_PLACES 2000`. -/
def MAX_PLACES : Nat := 2000

/-- The largest value of a 32-bit `int`. -/
def INT_MAX : Int := 2147483647

/-- The smallest value of a 32-bit `int`. -/
def INT_MIN : Int := -2147483648

/-! ## Data model -/

/-- Store `v` at index `i` of an array of declared size `size`.  For an index
outside the array the function leaves the array as it is; what the code does
with such a store (it lands on the words behind the array) is not described. -/
def store {α : Type} (size : Nat) (arr : Nat → α) (i : Nat) (v : α) : Nat → α :=
  if i < size then fun j => if j = i then v else arr j else arr

/-- The struct `typedef struct { int values[MAX_PLACES]; int last_position; int count; } NumberLine;` -/
structure NumberLine where
  values : Nat → Int
  last_position : Int
  count : Nat

/-- The struct `typedef struct { char symbols[BUFFER_SIZE]; int head; int tail; int count; } BufferSpace;` -/
structure BufferSpace where
  symbols : Nat → Nat
  head : Nat
  tail : Nat
  count : Nat

/-- The struct `typedef struct { NumberLine number_lines[SYMBOL_RANGE]; int current_step;
int symbol_order[SYMBOL_RANGE]; int order_count; } MemorySpace;` -/
structure MemorySpace where
  number_lines : Nat → NumberLine
  current_step : Int
  symbol_order : Nat → Int
  order_count : Nat

/-- The struct `typedef struct { BufferSpace *buffer; MemorySpace *memory;
int allow_zero_streaming; int update_speed; } Encoder;` -/
structure Encoder where
  buffer : BufferSpace
  memory : MemorySpace
  allow_zero_streaming : Int
  update_speed : Int

/-! ## Operations -/

/-- The function `tolower` of the C library in the "C" locale: the letters `A`..`Z` are
mapped to `a`..`z`, every other byte is returned as it is. -/
def tolower (c : Nat) : Nat :=
  if 65 ≤ c ∧ c ≤ 90 then c + 32 else c

/-- The function `initialize_buffer_space`: head, tail and count are 0, every slot is 0. -/
def initialize_buffer_space : BufferSpace :=
  { symbols := fun _ => 0, head := 0, tail := 0, count := 0 }

/-- The function `initialize_memory_space`: step 0, no symbol in the order, every number
line has `last_position = -1`, `count = 0` and all entries `-1`, every entry of
`symbol_order` is `-1`. -/
def initialize_memory_space : MemorySpace :=
  { number_lines := fun _ => { values := fun _ => -1, last_position := -1, count := 0 },
    current_step := 0,
    symbol_order := fun _ => -1,
    order_count := 0 }

/-- The text printed by `add_symbol_to_buffer` when the buffer is full. -/
def buffer_full_message : String := "Buffer is full. Cannot add symbol.\n"

/-- The function `add_symbol_to_buffer`: with room left, store `tolower(symbol)` at `tail`,
advance `tail` modulo `BUFFER_SIZE` and increment `count`; otherwise print the
message.  The second component is what the call printed. -/
def add_symbol_to_buffer (buffer : BufferSpace) (symbol : Nat) : BufferSpace × Option String :=
  if buffer.count < BUFFER_SIZE then
    ({ buffer with
        symbols := store BUFFER_SIZE buffer.symbols buffer.tail (tolower symbol),
        tail := (buffer.tail + 1) % BUFFER_SIZE,
        count := buffer.count + 1 }, none)
  else
    (buffer, some buffer_full_message)

/-- The function `remove_symbol_from_buffer`: with `count > 0`, return the symbol at `head`,
advance `head` modulo `BUFFER_SIZE` and decrement `count`; otherwise return
the byte 0. -/
def remove_symbol_from_buffer (buffer : BufferSpace) : Nat × BufferSpace :=
  if buffer.count > 0 then
    (buffer.symbols buffer.head,
      { buffer with head := (buffer.head + 1) % BUFFER_SIZE, count := buffer.count - 1 })
  else
    (0, buffer)

/-- The statement `number_line->values[number_line->count++] = v;`.  With
`count < MAX_PLACES` the store falls inside `values`.  On a full line the store
of the code lands behind `values` (with `count == MAX_PLACES` on the word of
`last_position`) and `count` is incremented all the same; the function
increments `count` and leaves the words behind `values` out. -/
def NumberLine.push (number_line : NumberLine) (v : Int) : NumberLine :=
  { number_line with
      values := store MAX_PLACES number_line.values number_line.count v,
      count := number_line.count + 1 }

/-- Lines 84-92 of `update_memory_space`: the branch on `last_position == -1`
for the number line of `symbol_index`, an index of `number_lines[0..256)`. -/
def record_symbol (memory : MemorySpace) (symbol_index : Nat) : MemorySpace :=
  let number_line := memory.number_lines symbol_index
  if number_line.last_position = -1 then
    { memory with
        number_lines := fun i =>
          if i = symbol_index then
            ({ number_line with last_position := memory.current_step }).push 0
          else memory.number_lines i,
        symbol_order :=
          store SYMBOL_RANGE memory.symbol_order memory.order_count (symbol_index : Int),
        order_count := memory.order_count + 1 }
  else
    let radix := memory.current_step - number_line.last_position
    { memory with
        number_lines := fun i =>
          if i = symbol_index then
            ({ number_line with last_position := memory.current_step }).push radix
          else memory.number_lines i }

/-- One iteration (index `i`) of the loop at lines 94-100 of
`update_memory_space`. -/
def placeholder_step (allow_zero_streaming : Int) (symbol_index : Nat)
    (memory : MemorySpace) (i : Nat) : MemorySpace :=
  if (memory.number_lines i).count > 0 ∧ i ≠ symbol_index then
    if allow_zero_streaming ≠ 0 then
      { memory with
          number_lines := fun j =>
            if j = i then (memory.number_lines i).push (-1) else memory.number_lines j }
    else memory
  else memory

/-- The function `update_memory_space`: the branch for the recorded symbol, the loop
`for (int i = 0; i < SYMBOL_RANGE; i++)` over all number lines, then
`memory->current_step++`.  The symbol is given as its byte value; the function
describes the call of the code when `update_defined encoder symbol` holds:
`(int)symbol` is then the byte value, every store falls inside its array and
no `int` overflows. -/
def update_memory_space (encoder : Encoder) (symbol : Nat) : Encoder :=
  let symbol_index := symbol
  let memory := record_symbol encoder.memory symbol_index
  let memory := (List.range SYMBOL_RANGE).foldl
    (placeholder_step encoder.allow_zero_streaming symbol_index) memory
  { encoder with memory := { memory with current_step := memory.current_step + 1 } }

/-! ## Notions used in the statements

The definitions below are not functions of the source: they read sequences off
a state, run the operations above over an input, and describe an input (the
steps at which a symbol occurs, its distinct symbols). -/

/-- The sequence held by a number line: the entries `values[0..count)` that lie
inside the array. -/
def NumberLine.seq (number_line : NumberLine) : List Int :=
  (List.range (min number_line.count MAX_PLACES)).map number_line.values

/-- The gap entries of a number line: its sequence without the `Absent`
entries (`-1`). -/
def NumberLine.gaps (number_line : NumberLine) : List Int :=
  number_line.seq.filter (fun v => v ≠ -1)

/-- The tracked symbols `symbol_order[0..order_count)`. -/
def MemorySpace.order (memory : MemorySpace) : List Int :=
  (List.range (min memory.order_count SYMBOL_RANGE)).map memory.symbol_order

/-- An encoder in its initial state, as `main` sets it up
(`initialize_buffer_space`, `initialize_memory_space`, `update_speed` 100),
with the given setting of `allow_zero_streaming`. -/
def initial_encoder (allow_zero_streaming : Int) : Encoder :=
  { buffer := initialize_buffer_space,
    memory := initialize_memory_space,
    allow_zero_streaming := allow_zero_streaming,
    update_speed := 100 }

/-- Record the symbols of `input`, in order, from the initial state. -/
def record_all (allow_zero_streaming : Int) (input : List Nat) : Encoder :=
  input.foldl update_memory_space (initial_encoder allow_zero_streaming)

/-- The steps (0-based positions in the input) at which `symbol` occurs. -/
def occurrence_steps (input : List Nat) (symbol : Nat) : List Nat :=
  (List.range input.length).filter (fun i => input[i]? = some symbol)

/-- No number line holds more entries than its array has places. -/
def within_capacity (encoder : Encoder) : Prop :=
  ∀ u, u < SYMBOL_RANGE → (encoder.memory.number_lines u).count ≤ MAX_PLACES

/-- The step of the last occurrence, `-1` when there is none. -/
def last_step (occ : List Nat) : Int :=
  match occ.getLast? with
  | none => -1
  | some p => (p : Int)

/-- The differences between consecutive steps, starting from step `p`. -/
def diffs_from (p : Nat) : List Nat → List Int
  | [] => []
  | q :: r => ((q : Int) - (p : Int)) :: diffs_from q r

/-- The gap values that belong to a list of occurrence steps: 0 for the first
occurrence, then the difference to the previous occurrence. -/
def expected_gaps : List Nat → List Int
  | [] => []
  | a :: r => 0 :: diffs_from a r

/-- The distinct symbols of an input in the order of their first occurrence. -/
def distinct_symbols : List Nat → List Nat
  | [] => []
  | x :: xs => x :: (distinct_symbols xs).filter (fun y => y ≠ x)

/-- The queue invariant: `0 <= count <= BUFFER_SIZE` and `head`, `tail` are
indices of the buffer. -/
def queue_invariant (buffer : BufferSpace) : Prop :=
  buffer.count ≤ BUFFER_SIZE ∧ buffer.head < BUFFER_SIZE ∧ buffer.tail < BUFFER_SIZE

/-- Enqueue the symbols of `xs`, in order, with no dequeue in between. -/
def enqueue_all (buffer : BufferSpace) (xs : List Nat) : BufferSpace :=
  xs.foldl (fun b x => (add_symbol_to_buffer b x).1) buffer

/-- Dequeue `n` times in a row: the returned symbols, in order, and the queue
left behind. -/
def dequeue_n : Nat → BufferSpace → List Nat × BufferSpace
  | 0, buffer => ([], buffer)
  | n + 1, buffer =>
    let r := remove_symbol_from_buffer buffer
    let rest := dequeue_n n r.2
    (r.1 :: rest.1, rest.2)

/-! ## Defined behaviour -/

/-- The index `(int)symbol` of the code for the byte `symbol` held in a signed
`char`: the byte value for `0..127`, the byte value minus 256 for
`128..255`. -/
def symbol_index (symbol : Nat) : Int :=
  if symbol < 128 then (symbol : Int) else (symbol : Int) - 256

/-- The call `update_memory_space(encoder, symbol)` stays inside the arrays and
inside the range of `int`: `(int)symbol` is the byte value (an index of
`number_lines`), the store into the line of the symbol falls inside `values`,
so does the store into `symbol_order` when the symbol is unseen, so do the
placeholder stores of the loop, `current_step++` does not overflow, and the gap
`current_step - last_position` is an `int`. -/
def update_defined (encoder : Encoder) (symbol : Nat) : Prop :=
  symbol < 128 ∧
  (encoder.memory.number_lines symbol).count < MAX_PLACES ∧
  ((encoder.memory.number_lines symbol).last_position = -1 →
    encoder.memory.order_count < SYMBOL_RANGE) ∧
  (encoder.allow_zero_streaming ≠ 0 → ∀ i, i < SYMBOL_RANGE → i ≠ symbol →
    0 < (encoder.memory.number_lines i).count →
    (encoder.memory.number_lines i).count < MAX_PLACES) ∧
  INT_MIN ≤ encoder.memory.current_step ∧ encoder.memory.current_step < INT_MAX ∧
  ((encoder.memory.number_lines symbol).last_position ≠ -1 →
    INT_MIN ≤ encoder.memory.current_step - (encoder.memory.number_lines symbol).last_position ∧
    encoder.memory.current_step - (encoder.memory.number_lines symbol).last_position ≤
      INT_MAX)

/-- Every call of `update_memory_space` in the run over `input` from the
initial state is defined. -/
def run_defined (allow_zero_streaming : Int) (input : List Nat) : Prop :=
  ∀ k x, input[k]? = some x →
    update_defined (record_all allow_zero_streaming (input.take k)) x

/-- A snapshot whose only tracked entry is `-56`, the value of `(int)symbol`
for the byte 200 held in a signed `char`. -/
def snapshot_with_negative_symbol : MemorySpace :=
  { initialize_memory_space with
    symbol_order := fun k => if k = 0 then -56 else -1,
    order_count := 1,
    current_step := 1 }

/-! ## Rendering and the driver -/

/-- The digit table `const char *digits = "0123456789abcdefghijklmnopqrstuvwxyz"`:
its 36 digit characters. -/
def digits : List Char := "0123456789abcdefghijklmnopqrstuvwxyz".toList

/-- The read `digits[i]`: the digit character at index `i`, and `none` for an
index that is not one of the 36 digits (index 36 is the terminating NUL of the
string literal, every other such index lies outside the string). -/
def digit_at (i : Int) : Option Char :=
  if 0 ≤ i then digits[i.toNat]? else none

/-- The function `convert_to_base36`: one digit for `value < 36`, otherwise the
two digits `digits[value / 36]`, `digits[value % 36]`.  The result is `none`
when one of the reads of `digits` is not a read of a digit.  In the second
branch `value` is at least 36, where the division of C and `/`, `%` on integers
agree. -/
def convert_to_base36 (value : Int) : Option String :=
  if value < 36 then
    match digit_at value with
    | some d0 => some (String.mk [d0])
    | none => none
  else
    match digit_at (value / 36), digit_at (value % 36) with
    | some d0, some d1 => some (String.mk [d0, d1])
    | _, _ => none

/-- One call of the curses library made by `print_mixed_radix_form`. -/
inductive DrawCall where
  | mvaddch (y x : Int) (ch : Int)
  | mvhline (y x : Int) (ch : Char) (n : Int)
  | mvprintw (y x : Int) (text : Option String)
  deriving DecidableEq

/-- The inner loop of `print_mixed_radix_form` for the column at `x`, from
index `j` on: `for (...; j < rows - 2 && j < count; j++)` with its `break` at
an entry `-1` when zero streaming is not allowed.  `fuel` bounds the number of
iterations; `count` iterations are always enough. -/
def print_column (number_line : NumberLine) (allow_zero_streaming : Int) (rows x : Int) :
    Nat → Nat → List DrawCall
  | 0, _ => []
  | fuel + 1, j =>
    if (j : Int) < rows - 2 ∧ j < number_line.count then
      let value := number_line.values (number_line.count - j - 1)
      if value ≠ -1 ∨ allow_zero_streaming ≠ 0 then
        DrawCall.mvprintw ((j : Int) + 2) x (convert_to_base36 (if value ≠ -1 then value else 0)) ::
          print_column number_line allow_zero_streaming rows x fuel (j + 1)
      else []
    else []

/-- The number line that column `i` of `print_mixed_radix_form` reads,
`number_lines[symbol_order[order_count - i - 1]]`, for an entry of
`symbol_order` that is an index of `number_lines`. -/
def column_line (memory : MemorySpace) (i : Nat) : NumberLine :=
  memory.number_lines (memory.symbol_order (memory.order_count - i - 1)).toNat

/-- The reads of `print_mixed_radix_form` for column `i` fall inside their
arrays: `order_count - i - 1` is an index of `symbol_order[0..256)`, the entry
read there is an index of `number_lines[0..256)`, and, when the inner loop runs
at all (`rows > 2`), the entries it reads, of which `values[count - 1]` is the
farthest, lie in `values[0..2000)`. -/
def column_readable (memory : MemorySpace) (rows : Int) (i : Nat) : Bool :=
  decide (memory.order_count - i - 1 < SYMBOL_RANGE) &&
    decide (0 ≤ memory.symbol_order (memory.order_count - i - 1)) &&
    decide (memory.symbol_order (memory.order_count - i - 1) < SYMBOL_RANGE) &&
    (decide (rows ≤ 2) || decide ((column_line memory i).count ≤ MAX_PLACES))

/-- The function `print_mixed_radix_form`, as the list of drawing calls between
`clear()` and `refresh()`: the symbol labels, the horizontal line, then the
columns.  `rows` and `cols` are `LINES` and `COLS` of the curses library.  The
code uses an entry of `symbol_order` as index of `number_lines` as it is, and
reads `values[count - j - 1]` with no check; the result is `none` when one of
these reads falls outside its array (`column_readable`). -/
def print_mixed_radix_form (memory : MemorySpace) (allow_zero_streaming : Int)
    (rows cols : Int) : Option (List DrawCall) :=
  if (List.range memory.order_count).all (column_readable memory rows) then
    let labels := (List.range memory.order_count).foldl
      (fun out i =>
        let symbol_index := memory.symbol_order (memory.order_count - i - 1)
        out ++ [DrawCall.mvaddch 0 ((i : Int) * 4) symbol_index])
      []
    let line := [DrawCall.mvhline 1 0 '-' cols]
    let columns := (List.range memory.order_count).foldl
      (fun out i =>
        let symbol_index := memory.symbol_order (memory.order_count - i - 1)
        let number_line := memory.number_lines symbol_index.toNat
        out ++ print_column number_line allow_zero_streaming rows ((i : Int) * 4)
          number_line.count 0)
      []
    some (labels ++ line ++ columns)
  else none

/-- The snapshot after recording `"bab"` with zero streaming enabled: `'b'` has
the entries 0, `-1`, 2 and `'a'` the entries 0, `-1`. -/
def snapshot_after_bab : MemorySpace :=
  { number_lines := fun s =>
      if s = 98 then
        { values := fun j => if j = 0 then 0 else if j = 2 then 2 else -1,
          last_position := 2, count := 3 }
      else if s = 97 then
        { values := fun j => if j = 0 then 0 else -1, last_position := 1, count := 2 }
      else { values := fun _ => -1, last_position := -1, count := 0 },
    current_step := 3,
    symbol_order := fun k => if k = 0 then 98 else if k = 1 then 97 else -1,
    order_count := 2 }

/-- One iteration of the loop of `process_symbols`: dequeue a symbol and, when
it is not the byte 0, record it.  (The rendering and the delay that follow do
not change the encoder.) -/
def process_step (encoder : Encoder) : Encoder :=
  let r := remove_symbol_from_buffer encoder.buffer
  let encoder := { encoder with buffer := r.2 }
  if r.1 ≠ 0 then update_memory_space encoder r.1 else encoder

/-- The function `process_symbols`: the loop
`while (encoder->buffer->count > 0)` around `process_step`, with `fuel`
bounding the number of iterations: `none` when the bound is reached with the
queue still not empty. -/
def process_symbols : Nat → Encoder → Option Encoder
  | 0, encoder => if encoder.buffer.count > 0 then none else some encoder
  | fuel + 1, encoder =>
    if encoder.buffer.count > 0 then process_symbols fuel (process_step encoder)
    else some encoder

/-- The body of the reading loop of `read_file_and_encode` for one byte `ch`:
`add_symbol_to_buffer` followed by `process_symbols`, run with `fuel` loop
iterations. -/
def encode_byte (fuel : Nat) (encoder : Encoder) (ch : Nat) : Option Encoder :=
  process_symbols fuel
    { encoder with buffer := (add_symbol_to_buffer encoder.buffer ch).1 }

/-- The reading loop `while ((ch = fgetc(file)) != EOF)` of
`read_file_and_encode` over the bytes of the file.  The code keeps the result
of `fgetc` in a `char` before comparing it with `EOF` (`-1`): held in a signed
`char` the byte 255 is `-1`, so the loop ends at the first byte 255 as it does
at the end of the file. -/
def read_file_and_encode (fuel : Nat) (bytes : List Nat) (encoder : Encoder) : Option Encoder :=
  (bytes.takeWhile (fun b => b ≠ 255)).foldlM (encode_byte fuel) encoder

/-- One operation on the queue. -/
inductive QueueOp where
  | enqueue (symbol : Nat)
  | dequeue

/-- Apply one queue operation. -/
def apply_op (buffer : BufferSpace) : QueueOp → BufferSpace
  | QueueOp.enqueue symbol => (add_symbol_to_buffer buffer symbol).1
  | QueueOp.dequeue => (remove_symbol_from_buffer buffer).2

/-- The queue reached from `initialize_buffer_space` by a sequence of
operations. -/
def run_ops (ops : List QueueOp) : BufferSpace :=
  ops.foldl apply_op initialize_buffer_space

/-! ## The loop of `update_memory_space` -/

theorem placeholder_step_fields (zs : Int) (s : Nat) (m : MemorySpace) (i : Nat) :
    (placeholder_step zs s m i).current_step = m.current_step ∧
    (placeholder_step zs s m i).symbol_order = m.symbol_order ∧
    (placeholder_step zs s m i).order_count = m.order_count := by
  unfold placeholder_step
  split_ifs <;> simp

theorem placeholder_step_line (zs : Int) (s : Nat) (m : MemorySpace) (i t : Nat) :
    (placeholder_step zs s m i).number_lines t =
      if t = i ∧ 0 < (m.number_lines t).count ∧ t ≠ s ∧ zs ≠ 0 then
        (m.number_lines t).push (-1)
      else m.number_lines t := by
  unfold placeholder_step
  by_cases hti : t = i
  · subst hti
    by_cases h1 : 0 < (m.number_lines t).count <;> by_cases h2 : t = s <;>
      by_cases h3 : zs = 0 <;> simp [h1, h2, h3]
  · have hneg : ¬ (t = i ∧ 0 < (m.number_lines t).count ∧ t ≠ s ∧ zs ≠ 0) := fun h => hti h.1
    rw [if_neg hneg]
    split_ifs <;> simp [hti]

theorem placeholder_loop_fields (zs : Int) (s : Nat) (m : MemorySpace) (n : Nat) :
    ((List.range n).foldl (placeholder_step zs s) m).current_step = m.current_step ∧
    ((List.range n).foldl (placeholder_step zs s) m).symbol_order = m.symbol_order ∧
    ((List.range n).foldl (placeholder_step zs s) m).order_count = m.order_count := by
  induction n with
  | zero => simp
  | succ n ih =>
    rw [List.range_succ, List.foldl_append]
    simp only [List.foldl_cons, List.foldl_nil]
    obtain ⟨h1, h2, h3⟩ := placeholder_step_fields zs s
      ((List.range n).foldl (placeholder_step zs s) m) n
    exact ⟨h1.trans ih.1, h2.trans ih.2.1, h3.trans ih.2.2⟩

theorem placeholder_loop_line (zs : Int) (s : Nat) (m : MemorySpace) (n t : Nat) :
    ((List.range n).foldl (placeholder_step zs s) m).number_lines t =
      if t < n ∧ 0 < (m.number_lines t).count ∧ t ≠ s ∧ zs ≠ 0 then
        (m.number_lines t).push (-1)
      else m.number_lines t := by
  induction n with
  | zero => simp
  | succ n ih =>
    rw [List.range_succ, List.foldl_append]
    simp only [List.foldl_cons, List.foldl_nil]
    rw [placeholder_step_line, ih]
    by_cases htn : t = n
    · subst htn
      simp
    · have h1 : t < n + 1 ↔ t < n := by omega
      simp [htn, h1]

theorem record_symbol_line_other (m : MemorySpace) (s t : Nat) (h : t ≠ s) :
    (record_symbol m s).number_lines t = m.number_lines t := by
  unfold record_symbol
  by_cases h1 : (m.number_lines s).last_position = -1 <;> simp [h1, h]

theorem record_symbol_line_self (m : MemorySpace) (s : Nat) :
    (record_symbol m s).number_lines s =
      ({ m.number_lines s with last_position := m.current_step }).push
        (if (m.number_lines s).last_position = -1 then 0
         else m.current_step - (m.number_lines s).last_position) := by
  unfold record_symbol
  by_cases h1 : (m.number_lines s).last_position = -1 <;> simp [h1]

theorem record_symbol_step (m : MemorySpace) (s : Nat) :
    (record_symbol m s).current_step = m.current_step := by
  unfold record_symbol
  by_cases h1 : (m.number_lines s).last_position = -1 <;> simp [h1]

/-- The number line of the recorded symbol after `update_memory_space`. -/
theorem update_line_self (e : Encoder) (s : Nat) :
    (update_memory_space e s).memory.number_lines s =
      ({ e.memory.number_lines s with last_position := e.memory.current_step }).push
        (if (e.memory.number_lines s).last_position = -1 then 0
         else e.memory.current_step - (e.memory.number_lines s).last_position) := by
  simp only [update_memory_space]
  rw [placeholder_loop_line]
  simp [record_symbol_line_self]

/-- The number line of any other symbol after `update_memory_space`. -/
theorem update_line_other (e : Encoder) (s t : Nat) (h : t ≠ s) :
    (update_memory_space e s).memory.number_lines t =
      if t < SYMBOL_RANGE ∧ 0 < (e.memory.number_lines t).count ∧ e.allow_zero_streaming ≠ 0 then
        (e.memory.number_lines t).push (-1)
      else e.memory.number_lines t := by
  simp only [update_memory_space]
  rw [placeholder_loop_line, record_symbol_line_other _ _ _ h]
  simp [h]

theorem update_step (e : Encoder) (s : Nat) :
    (update_memory_space e s).memory.current_step = e.memory.current_step + 1 := by
  simp only [update_memory_space]
  rw [(placeholder_loop_fields _ _ _ _).1, record_symbol_step]

theorem update_flag (e : Encoder) (s : Nat) :
    (update_memory_space e s).allow_zero_streaming = e.allow_zero_streaming := by
  simp only [update_memory_space]

/-- Pushing onto a number line with room left appends to its sequence. -/
theorem push_seq (nl : NumberLine) (v : Int) (h : nl.count < MAX_PLACES) :
    (nl.push v).seq = nl.seq ++ [v] := by
  unfold NumberLine.push NumberLine.seq store
  simp only [MAX_PLACES] at h ⊢
  simp only [h, if_true]
  have h1 : min (nl.count + 1) 2000 = nl.count + 1 := by omega
  have h2 : min nl.count 2000 = nl.count := by omega
  rw [h1, h2, List.range_succ, List.map_append]
  congr 1
  · apply List.map_congr_left
    intro j hj
    have : j ≠ nl.count := by
      have := List.mem_range.mp hj
      omega
    simp [this]
  · simp

/-- Pushing onto a full number line leaves its sequence as it is. -/
theorem push_seq_full (nl : NumberLine) (v : Int) (h : MAX_PLACES ≤ nl.count) :
    (nl.push v).seq = nl.seq := by
  unfold NumberLine.push NumberLine.seq store
  simp only [MAX_PLACES] at h ⊢
  have h0 : ¬ nl.count < 2000 := by omega
  have h1 : min (nl.count + 1) 2000 = 2000 := by omega
  have h2 : min nl.count 2000 = 2000 := by omega
  simp only [h0, if_false, h1, h2]
/-- The number line of every symbol after `update_memory_space`, in one
equation. -/
theorem update_line (e : Encoder) (s t : Nat) :
    (update_memory_space e s).memory.number_lines t =
      if t = s then
        ({ e.memory.number_lines s with last_position := e.memory.current_step }).push
          (if (e.memory.number_lines s).last_position = -1 then 0
           else e.memory.current_step - (e.memory.number_lines s).last_position)
      else if t < SYMBOL_RANGE ∧ 0 < (e.memory.number_lines t).count ∧
          e.allow_zero_streaming ≠ 0 then
        (e.memory.number_lines t).push (-1)
      else e.memory.number_lines t := by
  by_cases h : t = s
  · subst h
    simp [update_line_self]
  · simp [h, update_line_other]

/-! ## Runs from the initial state -/

theorem record_all_nil (zs : Int) : record_all zs [] = initial_encoder zs := rfl

theorem record_all_snoc (zs : Int) (xs : List Nat) (x : Nat) :
    record_all zs (xs ++ [x]) = update_memory_space (record_all zs xs) x := by
  simp [record_all, List.foldl_append]

theorem record_all_flag (zs : Int) (xs : List Nat) :
    (record_all zs xs).allow_zero_streaming = zs := by
  induction xs using List.reverseRecOn with
  | nil => rfl
  | append_singleton xs x ih => rw [record_all_snoc, update_flag, ih]

theorem record_all_step (zs : Int) (xs : List Nat) :
    (record_all zs xs).memory.current_step = (xs.length : Int) := by
  induction xs using List.reverseRecOn with
  | nil => rfl
  | append_singleton xs x ih =>
    rw [record_all_snoc, update_step, ih]
    simp

theorem push_count (nl : NumberLine) (v : Int) : (nl.push v).count = nl.count + 1 := rfl

theorem push_last_position (nl : NumberLine) (v : Int) :
    (nl.push v).last_position = nl.last_position := rfl

theorem update_count (e : Encoder) (s t : Nat) :
    ((update_memory_space e s).memory.number_lines t).count =
      if t = s then (e.memory.number_lines t).count + 1
      else if t < SYMBOL_RANGE ∧ 0 < (e.memory.number_lines t).count ∧
          e.allow_zero_streaming ≠ 0 then
        (e.memory.number_lines t).count + 1
      else (e.memory.number_lines t).count := by
  rw [update_line]
  by_cases h : t = s
  · subst h
    simp [push_count]
  · simp only [h, if_false]
    split_ifs <;> simp [push_count]

theorem update_count_mono (e : Encoder) (s t : Nat) :
    (e.memory.number_lines t).count ≤ ((update_memory_space e s).memory.number_lines t).count := by
  rw [update_count]
  split_ifs <;> omega

theorem update_last_position (e : Encoder) (s t : Nat) :
    ((update_memory_space e s).memory.number_lines t).last_position =
      if t = s then e.memory.current_step else (e.memory.number_lines t).last_position := by
  rw [update_line]
  by_cases h : t = s
  · subst h
    simp [push_last_position]
  · simp only [h, if_false]
    split_ifs <;> simp [push_last_position]

theorem within_capacity_of_update (e : Encoder) (s : Nat)
    (h : within_capacity (update_memory_space e s)) : within_capacity e :=
  fun u hu => le_trans (update_count_mono e s u) (h u hu)

theorem within_capacity_init (zs : Int) (xs : List Nat) (x : Nat)
    (h : within_capacity (record_all zs (xs ++ [x]))) : within_capacity (record_all zs xs) := by
  rw [record_all_snoc] at h
  exact within_capacity_of_update _ _ h

/-! ## Occurrence steps -/

theorem occurrence_steps_nil (t : Nat) : occurrence_steps [] t = [] := rfl

theorem occurrence_steps_snoc (xs : List Nat) (x t : Nat) :
    occurrence_steps (xs ++ [x]) t =
      occurrence_steps xs t ++ (if x = t then [xs.length] else []) := by
  unfold occurrence_steps
  rw [List.length_append, List.length_singleton, List.range_succ, List.filter_append]
  congr 1
  · apply List.filter_congr
    intro i hi
    have hi' : i < xs.length := List.mem_range.mp hi
    rw [List.getElem?_append_left hi']
  · by_cases h : x = t <;> simp [h]

theorem occurrence_steps_lt (xs : List Nat) (t p : Nat) (h : p ∈ occurrence_steps xs t) :
    p < xs.length := by
  unfold occurrence_steps at h
  exact List.mem_range.mp (List.mem_filter.mp h).1

theorem occurrence_steps_eq_nil (xs : List Nat) (t : Nat) :
    occurrence_steps xs t = [] ↔ t ∉ xs := by
  induction xs using List.reverseRecOn with
  | nil => simp [occurrence_steps_nil]
  | append_singleton xs x ih =>
    rw [occurrence_steps_snoc]
    by_cases h : x = t
    · simp [h]
    · simp [h, ih]
      exact fun _ => fun h' => h h'.symm

theorem occurrence_steps_length (xs : List Nat) (t : Nat) :
    (occurrence_steps xs t).length = xs.count t := by
  induction xs using List.reverseRecOn with
  | nil => simp [occurrence_steps_nil]
  | append_singleton xs x ih =>
    rw [occurrence_steps_snoc, List.length_append, ih, List.count_append]
    by_cases h : x = t
    · simp [h]
    · have h' : (x == t) = false := by simp [h]
      simp [h, List.count_cons, h']

theorem last_step_nil : last_step [] = -1 := rfl

theorem last_step_snoc (occ : List Nat) (n : Nat) : last_step (occ ++ [n]) = (n : Int) := by
  simp [last_step]

theorem last_step_eq_neg_one (occ : List Nat) : last_step occ = -1 ↔ occ = [] := by
  induction occ using List.reverseRecOn with
  | nil => simp [last_step_nil]
  | append_singleton occ n _ =>
    rw [last_step_snoc]
    constructor
    · intro h
      omega
    · intro h
      simp at h

theorem last_step_lt (occ : List Nat) (n : Nat) (h : ∀ p ∈ occ, p < n) : last_step occ < (n : Int) := by
  induction occ using List.reverseRecOn with
  | nil =>
    rw [last_step_nil]
    omega
  | append_singleton occ q _ =>
    rw [last_step_snoc]
    have := h q (by simp)
    omega

/-- The last position of every symbol in a run is the step of its last
occurrence, `-1` when it has not occurred. -/
theorem run_last_position (zs : Int) (xs : List Nat) (t : Nat) :
    ((record_all zs xs).memory.number_lines t).last_position =
      last_step (occurrence_steps xs t) := by
  induction xs using List.reverseRecOn with
  | nil => rfl
  | append_singleton xs x ih =>
    rw [record_all_snoc, update_last_position, occurrence_steps_snoc, record_all_step]
    by_cases h : t = x
    · subst h
      simp [last_step_snoc]
    · have h' : ¬ x = t := fun e => h e.symm
      simp [h, h', ih]

/-! ## Expected gaps -/

theorem diffs_from_snoc (p : Nat) (l : List Nat) (n : Nat) :
    diffs_from p (l ++ [n]) = diffs_from p l ++ [(n : Int) - ((l.getLast?.getD p : Nat) : Int)] := by
  induction l generalizing p with
  | nil => simp [diffs_from]
  | cons q r ih =>
    have h := ih q
    simp only [List.cons_append, diffs_from, List.getLast?_cons, Option.getD_some,
      List.append_eq, h]

theorem last_step_cons (a : Nat) (r : List Nat) :
    last_step (a :: r) = ((r.getLast?.getD a : Nat) : Int) := by
  simp [last_step, List.getLast?_cons]

theorem expected_gaps_snoc (occ : List Nat) (n : Nat) :
    expected_gaps (occ ++ [n]) =
      expected_gaps occ ++ [if last_step occ = -1 then 0 else (n : Int) - last_step occ] := by
  cases occ with
  | nil => simp [expected_gaps, diffs_from, last_step_nil]
  | cons a r =>
    have h : last_step (a :: r) ≠ -1 := by
      rw [Ne, last_step_eq_neg_one]
      simp
    simp only [List.cons_append, expected_gaps, diffs_from_snoc, h, if_false, last_step_cons]
    simp

theorem diffs_from_length (p : Nat) (l : List Nat) : (diffs_from p l).length = l.length := by
  induction l generalizing p with
  | nil => rfl
  | cons q r ih => simp [diffs_from, ih]

theorem expected_gaps_length (occ : List Nat) : (expected_gaps occ).length = occ.length := by
  cases occ with
  | nil => rfl
  | cons a r => simp [expected_gaps, diffs_from_length]

theorem diffs_from_getElem? (p : Nat) (l : List Nat) (k a b : Nat)
    (ha : (p :: l)[k]? = some a) (hb : (p :: l)[k + 1]? = some b) :
    (diffs_from p l)[k]? = some ((b : Int) - (a : Int)) := by
  induction l generalizing p k with
  | nil => simp at hb
  | cons q r ih =>
    cases k with
    | zero =>
      simp at ha hb
      simp [diffs_from, ha, hb]
    | succ k =>
      simp only [List.getElem?_cons_succ] at ha hb
      simp only [diffs_from, List.getElem?_cons_succ]
      exact ih q k ha (by simpa using hb)

theorem expected_gaps_getElem?_succ (occ : List Nat) (k a b : Nat)
    (ha : occ[k]? = some a) (hb : occ[k + 1]? = some b) :
    (expected_gaps occ)[k + 1]? = some ((b : Int) - (a : Int)) := by
  cases occ with
  | nil => simp at ha
  | cons p r =>
    simp only [expected_gaps, List.getElem?_cons_succ]
    exact diffs_from_getElem? p r k a b ha hb

theorem expected_gaps_head (occ : List Nat) (h : occ ≠ []) : (expected_gaps occ)[0]? = some 0 := by
  cases occ with
  | nil => exact absurd rfl h
  | cons p r => simp [expected_gaps]

theorem seq_with_last_position (nl : NumberLine) (p : Int) :
    ({ nl with last_position := p } : NumberLine).seq = nl.seq := rfl

theorem count_with_last_position (nl : NumberLine) (p : Int) :
    ({ nl with last_position := p } : NumberLine).count = nl.count := rfl

/-- The gap entries of a symbol's number line in a run are the expected gaps of
its occurrence steps, as long as the line did not outgrow its array. -/
theorem run_gaps (zs : Int) (xs : List Nat) (t : Nat)
    (h : ((record_all zs xs).memory.number_lines t).count ≤ MAX_PLACES) :
    ((record_all zs xs).memory.number_lines t).gaps = expected_gaps (occurrence_steps xs t) := by
  induction xs using List.reverseRecOn with
  | nil => simp [record_all_nil, initial_encoder, initialize_memory_space, NumberLine.gaps,
      NumberLine.seq, occurrence_steps_nil, expected_gaps]
  | append_singleton xs x ih =>
    rw [record_all_snoc] at h ⊢
    have hmono := update_count_mono (record_all zs xs) x t
    have ih' := ih (le_trans hmono h)
    rw [update_count] at h
    rw [update_line, occurrence_steps_snoc]
    by_cases htx : t = x
    · subst htx
      simp only [if_true] at h ⊢
      have hlt : ((record_all zs xs).memory.number_lines t).count < MAX_PLACES := by omega
      have hlp := run_last_position zs xs t
      have hstep := record_all_step zs xs
      have hbound : last_step (occurrence_steps xs t) < (xs.length : Int) :=
        last_step_lt _ _ (fun p hp => occurrence_steps_lt xs t p hp)
      unfold NumberLine.gaps at ih' ⊢
      rw [push_seq _ _ (by rw [count_with_last_position]; exact hlt), seq_with_last_position,
        List.filter_append, ih', expected_gaps_snoc, hlp, hstep]
      congr 1
      by_cases hl : last_step (occurrence_steps xs t) = -1
      · simp [hl]
      · simp only [hl, if_false]
        have : ((xs.length : Int) - last_step (occurrence_steps xs t)) ≠ -1 := by omega
        simp [this]
    · have htx' : ¬ x = t := fun e => htx e.symm
      simp only [htx, htx', if_false, List.append_nil] at h ⊢
      split_ifs at h ⊢ with hc
      · have hlt : ((record_all zs xs).memory.number_lines t).count < MAX_PLACES := by omega
        unfold NumberLine.gaps at ih' ⊢
        rw [push_seq _ _ hlt, List.filter_append, ih']
        simp
      · exact ih'

/-! ## Counts in a run -/

theorem run_count_sparse (xs : List Nat) (t : Nat) :
    ((record_all 0 xs).memory.number_lines t).count = xs.count t := by
  induction xs using List.reverseRecOn with
  | nil => rfl
  | append_singleton xs x ih =>
    rw [record_all_snoc, update_count, record_all_flag, List.count_append, ih]
    by_cases h : t = x
    · subst h
      simp
    · have h' : (x == t) = false := by
        simp only [beq_eq_false_iff_ne, ne_eq]
        exact fun e => h e.symm
      simp [h, List.count_cons, h']

theorem run_count_le_length (zs : Int) (xs : List Nat) (t : Nat) :
    ((record_all zs xs).memory.number_lines t).count ≤ xs.length := by
  induction xs using List.reverseRecOn with
  | nil => simp [record_all_nil, initial_encoder, initialize_memory_space]
  | append_singleton xs x ih =>
    rw [record_all_snoc, update_count, List.length_append, List.length_singleton]
    split_ifs <;> omega

theorem within_capacity_of_length (zs : Int) (xs : List Nat) (h : xs.length ≤ MAX_PLACES) :
    within_capacity (record_all zs xs) :=
  fun u _ => le_trans (run_count_le_length zs xs u) h

theorem run_count_pos_iff (zs : Int) (xs : List Nat) (t : Nat) :
    0 < ((record_all zs xs).memory.number_lines t).count ↔ t ∈ xs := by
  induction xs using List.reverseRecOn with
  | nil => simp [record_all_nil, initial_encoder, initialize_memory_space]
  | append_singleton xs x ih =>
    rw [record_all_snoc, update_count, List.mem_append, List.mem_singleton]
    by_cases h : t = x
    · simp [h]
    · simp only [h, if_false, or_false]
      rw [← ih]
      split_ifs <;> omega

/-! ## Sums of expected gaps -/

theorem diffs_from_take_sum (p : Nat) (l : List Nat) (k a : Nat) (ha : (p :: l)[k]? = some a) :
    ((diffs_from p l).take k).sum = (a : Int) - (p : Int) := by
  induction l generalizing p k with
  | nil =>
    cases k with
    | zero =>
      simp at ha
      simp [ha]
    | succ k => simp at ha
  | cons q r ih =>
    cases k with
    | zero =>
      simp at ha
      simp [ha]
    | succ k =>
      simp only [List.getElem?_cons_succ] at ha
      simp only [diffs_from, List.take_succ_cons, List.sum_cons]
      rw [ih q k ha]
      omega

theorem expected_gaps_take_sum (occ : List Nat) (k a1 ak : Nat)
    (h1 : occ[0]? = some a1) (hk : occ[k]? = some ak) :
    (a1 : Int) + ((expected_gaps occ).take (k + 1)).sum = (ak : Int) := by
  cases occ with
  | nil => simp at h1
  | cons p r =>
    simp at h1
    subst h1
    simp only [expected_gaps, List.take_succ_cons, List.sum_cons]
    rw [diffs_from_take_sum p r k ak hk]
    omega

theorem diffs_from_sum (p : Nat) (l : List Nat) :
    (diffs_from p l).sum = ((l.getLast?.getD p : Nat) : Int) - (p : Int) := by
  induction l generalizing p with
  | nil => simp [diffs_from]
  | cons q r ih =>
    simp only [diffs_from, List.sum_cons, ih q, List.getLast?_cons, Option.getD_some]
    omega

theorem expected_gaps_sum (occ : List Nat) (a1 : Nat) (h1 : occ[0]? = some a1) :
    (a1 : Int) + (expected_gaps occ).sum = last_step occ := by
  cases occ with
  | nil => simp at h1
  | cons p r =>
    simp at h1
    subst h1
    rw [last_step_cons]
    simp only [expected_gaps, List.sum_cons, diffs_from_sum]
    omega

/-! ## The first entry of a sequence -/

theorem push_seq_head (nl : NumberLine) (v w : Int) (h : nl.seq[0]? = some w) :
    (nl.push v).seq[0]? = some w := by
  by_cases hc : nl.count < MAX_PLACES
  · rw [push_seq _ _ hc, List.getElem?_append_left]
    · exact h
    · by_contra hlen
      have : nl.seq = [] := List.length_eq_zero.mp (by omega)
      rw [this] at h
      simp at h
  · rw [push_seq_full _ _ (by omega)]
    exact h

theorem seq_eq_nil_of_count (nl : NumberLine) (h : nl.count = 0) : nl.seq = [] := by
  simp [NumberLine.seq, h]

/-- The first entry of the sequence of a symbol that has occurred is 0. -/
theorem run_seq_head (zs : Int) (xs : List Nat) (t : Nat) (ht : t ∈ xs)
    (_h : ((record_all zs xs).memory.number_lines t).count ≤ MAX_PLACES) :
    ((record_all zs xs).memory.number_lines t).seq[0]? = some 0 := by
  induction xs using List.reverseRecOn with
  | nil => simp at ht
  | append_singleton xs x ih =>
    rw [record_all_snoc] at _h ⊢
    have hmono := update_count_mono (record_all zs xs) x t
    by_cases hm : t ∈ xs
    · have ih' := ih hm (le_trans hmono _h)
      by_cases htx : t = x
      · subst htx
        rw [update_line_self]
        exact push_seq_head _ _ _ (by rw [seq_with_last_position]; exact ih')
      · rw [update_line_other _ _ _ htx]
        split_ifs
        · exact push_seq_head _ _ _ ih'
        · exact ih'
    · have hx : t = x := by
        rcases List.mem_append.mp ht with h | h
        · exact absurd h hm
        · simpa using h
      subst hx
      have hc : ((record_all zs xs).memory.number_lines t).count = 0 := by
        have := (run_count_pos_iff zs xs t).not.mpr hm
        omega
      have hlp : ((record_all zs xs).memory.number_lines t).last_position = -1 := by
        rw [run_last_position, last_step_eq_neg_one, occurrence_steps_eq_nil]
        exact hm
      rw [update_line_self, hlp, push_seq _ _ (by rw [count_with_last_position, hc]; decide),
        seq_with_last_position, seq_eq_nil_of_count _ hc]
      simp

/-! ## Counts with zero streaming -/

theorem seq_length (nl : NumberLine) : nl.seq.length = min nl.count MAX_PLACES := by
  simp [NumberLine.seq]

theorem run_count_dense (zs : Int) (xs : List Nat) (t : Nat) (hzs : zs ≠ 0)
    (hrange : ∀ x ∈ xs, x < SYMBOL_RANGE) (ht : t ∈ xs) :
    ((record_all zs xs).memory.number_lines t).count + xs.indexOf t = xs.length := by
  induction xs using List.reverseRecOn with
  | nil => simp at ht
  | append_singleton xs x ih =>
    have hrange' : ∀ y ∈ xs, y < SYMBOL_RANGE := fun y hy => hrange y (by simp [hy])
    rw [record_all_snoc, update_count, record_all_flag, List.length_append, List.length_singleton]
    by_cases hm : t ∈ xs
    · have ih' := ih hrange' hm
      have hpos := (run_count_pos_iff zs xs t).mpr hm
      have ht' : t < SYMBOL_RANGE := hrange' t hm
      rw [List.indexOf_append_of_mem hm]
      by_cases htx : t = x
      · simp only [htx, if_true]
        rw [htx] at ih'
        omega
      · simp only [htx, if_false, ht', hpos, hzs, ne_eq, not_false_eq_true, and_self, if_true]
        omega
    · have hx : t = x := by
        rcases List.mem_append.mp ht with h | h
        · exact absurd h hm
        · simpa using h
      subst hx
      have hc : ((record_all zs xs).memory.number_lines t).count = 0 := by
        have := (run_count_pos_iff zs xs t).not.mpr hm
        omega
      rw [List.indexOf_append_of_not_mem hm]
      simp [hc]
      omega

/-! ## The order of first occurrence -/

theorem mem_distinct_symbols (xs : List Nat) (y : Nat) : y ∈ distinct_symbols xs ↔ y ∈ xs := by
  induction xs with
  | nil => simp [distinct_symbols]
  | cons x xs ih =>
    simp only [distinct_symbols, List.mem_cons, List.mem_filter, ih, decide_eq_true_eq]
    constructor
    · rintro (h | ⟨h, _⟩)
      · exact Or.inl h
      · exact Or.inr h
    · rintro (h | h)
      · exact Or.inl h
      · by_cases hy : y = x
        · exact Or.inl hy
        · exact Or.inr ⟨h, hy⟩

theorem nodup_distinct_symbols (xs : List Nat) : (distinct_symbols xs).Nodup := by
  induction xs with
  | nil => simp [distinct_symbols]
  | cons x xs ih =>
    simp only [distinct_symbols, List.nodup_cons, List.mem_filter, decide_eq_true_eq]
    exact ⟨fun h => h.2 rfl, ih.filter _⟩

theorem distinct_symbols_snoc (xs : List Nat) (s : Nat) :
    distinct_symbols (xs ++ [s]) =
      if s ∈ xs then distinct_symbols xs else distinct_symbols xs ++ [s] := by
  induction xs with
  | nil => simp [distinct_symbols]
  | cons x xs ih =>
    rw [List.cons_append]
    simp only [distinct_symbols, List.mem_cons]
    rw [ih]
    by_cases hs : s ∈ xs
    · simp [hs]
    · by_cases hx : s = x
      · subst hx
        simp [hs]
      · simp [hs, hx]

theorem distinct_symbols_length_le (xs : List Nat) (h : ∀ x ∈ xs, x < SYMBOL_RANGE) :
    (distinct_symbols xs).length ≤ SYMBOL_RANGE := by
  have hsub : distinct_symbols xs ⊆ List.range SYMBOL_RANGE := by
    intro y hy
    exact List.mem_range.mpr (h y ((mem_distinct_symbols xs y).mp hy))
  have := (List.subperm_of_subset (nodup_distinct_symbols xs) hsub).length_le
  simpa using this

theorem distinct_symbols_ordered (xs : List Nat) :
    (distinct_symbols xs).Pairwise (fun a b => xs.indexOf a < xs.indexOf b) := by
  induction xs using List.reverseRecOn with
  | nil => simp [distinct_symbols]
  | append_singleton xs s ih =>
    have hold : (distinct_symbols xs).Pairwise
        (fun a b => (xs ++ [s]).indexOf a < (xs ++ [s]).indexOf b) := by
      refine ih.imp_of_mem ?_
      intro a b ha hb hab
      rw [List.indexOf_append_of_mem ((mem_distinct_symbols xs a).mp ha),
        List.indexOf_append_of_mem ((mem_distinct_symbols xs b).mp hb)]
      exact hab
    rw [distinct_symbols_snoc]
    by_cases hs : s ∈ xs
    · simp only [hs, if_true]
      exact hold
    · simp only [hs, if_false]
      rw [List.pairwise_append]
      refine ⟨hold, List.pairwise_singleton _ _, ?_⟩
      intro a ha b hb
      have hb' : b = s := by simpa using hb
      subst hb'
      have ha' := (mem_distinct_symbols xs a).mp ha
      rw [List.indexOf_append_of_mem ha', List.indexOf_append_of_not_mem hs]
      have := List.indexOf_lt_length.mpr ha'
      omega

/-! ## `symbol_order` under `update_memory_space` -/

theorem record_symbol_order_count (m : MemorySpace) (s : Nat) :
    (record_symbol m s).order_count =
      if (m.number_lines s).last_position = -1 then m.order_count + 1 else m.order_count := by
  unfold record_symbol
  by_cases h1 : (m.number_lines s).last_position = -1 <;> simp [h1]

theorem record_symbol_symbol_order (m : MemorySpace) (s : Nat) :
    (record_symbol m s).symbol_order =
      if (m.number_lines s).last_position = -1 then
        store SYMBOL_RANGE m.symbol_order m.order_count (s : Int)
      else m.symbol_order := by
  unfold record_symbol
  by_cases h1 : (m.number_lines s).last_position = -1 <;> simp [h1]

theorem update_order_count (e : Encoder) (s : Nat) :
    (update_memory_space e s).memory.order_count =
      if (e.memory.number_lines s).last_position = -1 then e.memory.order_count + 1
      else e.memory.order_count := by
  simp only [update_memory_space]
  rw [(placeholder_loop_fields _ _ _ _).2.2, record_symbol_order_count]

theorem update_symbol_order (e : Encoder) (s : Nat) :
    (update_memory_space e s).memory.symbol_order =
      if (e.memory.number_lines s).last_position = -1 then
        store SYMBOL_RANGE e.memory.symbol_order e.memory.order_count (s : Int)
      else e.memory.symbol_order := by
  simp only [update_memory_space]
  rw [(placeholder_loop_fields _ _ _ _).2.1, record_symbol_symbol_order]

theorem update_order_seen (e : Encoder) (s : Nat)
    (h : (e.memory.number_lines s).last_position ≠ -1) :
    (update_memory_space e s).memory.order = e.memory.order := by
  unfold MemorySpace.order
  rw [update_order_count, update_symbol_order]
  simp [h]

theorem update_order_unseen (e : Encoder) (s : Nat)
    (h : (e.memory.number_lines s).last_position = -1)
    (hroom : e.memory.order_count < SYMBOL_RANGE) :
    (update_memory_space e s).memory.order = e.memory.order ++ [(s : Int)] := by
  unfold MemorySpace.order
  rw [update_order_count, update_symbol_order]
  simp only [h, if_true, store, hroom]
  have h1 : min (e.memory.order_count + 1) SYMBOL_RANGE = e.memory.order_count + 1 := by omega
  have h2 : min e.memory.order_count SYMBOL_RANGE = e.memory.order_count := by omega
  rw [h1, h2, List.range_succ, List.map_append]
  congr 1
  · apply List.map_congr_left
    intro j hj
    have : j ≠ e.memory.order_count := by
      have := List.mem_range.mp hj
      omega
    simp [this]
  · simp

theorem run_unseen_iff (zs : Int) (xs : List Nat) (s : Nat) :
    ((record_all zs xs).memory.number_lines s).last_position = -1 ↔ s ∉ xs := by
  rw [run_last_position, last_step_eq_neg_one, occurrence_steps_eq_nil]

/-- The tracked symbols of a run are the distinct symbols of the input in the
order of their first occurrence. -/
theorem run_order (zs : Int) (xs : List Nat) (hrange : ∀ x ∈ xs, x < SYMBOL_RANGE) :
    (record_all zs xs).memory.order = List.map (fun p : Nat => (p : Int)) (distinct_symbols xs) ∧
      (record_all zs xs).memory.order_count = (distinct_symbols xs).length := by
  induction xs using List.reverseRecOn with
  | nil => simp [record_all_nil, initial_encoder, initialize_memory_space, MemorySpace.order,
      distinct_symbols]
  | append_singleton xs x ih =>
    have hrange' : ∀ y ∈ xs, y < SYMBOL_RANGE := fun y hy => hrange y (by simp [hy])
    obtain ⟨ih1, ih2⟩ := ih hrange'
    have hlen := distinct_symbols_length_le (xs ++ [x]) hrange
    rw [record_all_snoc, distinct_symbols_snoc, update_order_count]
    by_cases hx : x ∈ xs
    · have hseen : ((record_all zs xs).memory.number_lines x).last_position ≠ -1 := by
        rw [Ne, run_unseen_iff]
        exact fun h => h hx
      rw [update_order_seen _ _ hseen]
      simp only [hx, hseen, if_true, if_false]
      exact ⟨ih1, ih2⟩
    · have hunseen := (run_unseen_iff zs xs x).mpr hx
      rw [distinct_symbols_snoc] at hlen
      simp only [hx, if_false, List.length_append, List.length_singleton] at hlen
      rw [update_order_unseen _ _ hunseen (by rw [ih2]; omega)]
      simp only [hx, hunseen, if_true, if_false, List.map_append, List.length_append,
        List.length_singleton, List.map_cons, List.map_nil]
      exact ⟨by rw [ih1], by rw [ih2]⟩

/-! ## Runs of the symbol queue -/

theorem enqueue_all_snoc (b : BufferSpace) (xs : List Nat) (x : Nat) :
    enqueue_all b (xs ++ [x]) = (add_symbol_to_buffer (enqueue_all b xs) x).1 := by
  simp [enqueue_all, List.foldl_append]

/-- The queue after enqueuing `xs` into the initial queue: the first
`BUFFER_SIZE` symbols are stored, lowercase, from index 0 on. -/
theorem enqueue_all_state (xs : List Nat) :
    (enqueue_all initialize_buffer_space xs).head = 0 ∧
      (enqueue_all initialize_buffer_space xs).count = min xs.length BUFFER_SIZE ∧
      (enqueue_all initialize_buffer_space xs).tail = (min xs.length BUFFER_SIZE) % BUFFER_SIZE ∧
      ∀ i x, i < BUFFER_SIZE → xs[i]? = some x →
        (enqueue_all initialize_buffer_space xs).symbols i = tolower x := by
  induction xs using List.reverseRecOn with
  | nil => simp [enqueue_all, initialize_buffer_space, BUFFER_SIZE]
  | append_singleton xs x ih =>
    obtain ⟨ih1, ih2, ih3, ih4⟩ := ih
    rw [enqueue_all_snoc, List.length_append, List.length_singleton]
    unfold add_symbol_to_buffer
    by_cases hlen : xs.length < BUFFER_SIZE
    · have hc : (enqueue_all initialize_buffer_space xs).count < BUFFER_SIZE := by
        rw [ih2]
        omega
      have ht : (enqueue_all initialize_buffer_space xs).tail = xs.length := by
        rw [ih3, Nat.min_eq_left (le_of_lt hlen), Nat.mod_eq_of_lt hlen]
      rw [if_pos hc]
      simp only [ih1, ih2, ht]
      refine ⟨trivial, ?_, ?_, ?_⟩
      · simp only [BUFFER_SIZE] at hlen ⊢
        omega
      · simp only [BUFFER_SIZE] at hlen ⊢
        omega
      · intro i y hi hy
        simp only [store, hlen, if_true]
        by_cases hil : i = xs.length
        · subst hil
          simp at hy
          simp [hy]
        · have hi' : i < xs.length := by
            by_contra hge
            have : (xs ++ [x])[i]? = none := by
              apply List.getElem?_eq_none
              simp
              omega
            rw [this] at hy
            simp at hy
          rw [List.getElem?_append_left hi'] at hy
          simp only [hil, if_false]
          exact ih4 i y hi hy
    · have hc : ¬ (enqueue_all initialize_buffer_space xs).count < BUFFER_SIZE := by
        rw [ih2]
        omega
      rw [if_neg hc]
      refine ⟨ih1, ?_, ?_, ?_⟩
      · rw [ih2]
        omega
      · rw [ih3]
        have h1 : min xs.length BUFFER_SIZE = BUFFER_SIZE := by omega
        have h2 : min (xs.length + 1) BUFFER_SIZE = BUFFER_SIZE := by omega
        rw [h1, h2]
      · intro i y hi hy
        have hi' : i < xs.length := by omega
        rw [List.getElem?_append_left hi'] at hy
        exact ih4 i y hi hy

/-- Dequeuing `j` times from a queue that holds at least `j` symbols, none of
them wrapped around the end of the buffer. -/
theorem dequeue_n_spec (j : Nat) (b : BufferSpace) (hj : j ≤ b.count)
    (hw : b.head + j ≤ BUFFER_SIZE) :
    (dequeue_n j b).1 = (List.range j).map (fun i => b.symbols (b.head + i)) ∧
      (dequeue_n j b).2.count = b.count - j ∧
      (dequeue_n j b).2.symbols = b.symbols := by
  induction j generalizing b with
  | zero => simp [dequeue_n]
  | succ j ih =>
    have hpos : b.count > 0 := by omega
    simp only [dequeue_n, remove_symbol_from_buffer, hpos, if_true]
    by_cases hj0 : j = 0
    · subst hj0
      simp [dequeue_n, List.range_succ]
    · have hh : (b.head + 1) % BUFFER_SIZE = b.head + 1 := by
        apply Nat.mod_eq_of_lt
        omega
      obtain ⟨r1, r2, r3⟩ := ih
        { b with head := (b.head + 1) % BUFFER_SIZE, count := b.count - 1 }
        (by simp only []; omega) (by simp only [hh]; omega)
      refine ⟨?_, ?_, ?_⟩
      · rw [r1, List.range_succ_eq_map, List.map_cons, List.map_map]
        simp only [hh, Nat.add_zero]
        congr 1
        apply List.map_congr_left
        intro i _
        simp only [Function.comp, Nat.succ_eq_add_one]
        congr 1
        omega
      · rw [r2]
        simp only []
        omega
      · rw [r3]

/-! ## Defined runs -/

theorem last_step_nonneg (occ : List Nat) (h : occ ≠ []) : 0 ≤ last_step occ := by
  induction occ using List.reverseRecOn with
  | nil => exact absurd rfl h
  | append_singleton occ n _ =>
    rw [last_step_snoc]
    omega

theorem foldl_update_count_mono (q : List Nat) (e : Encoder) (t : Nat) :
    (e.memory.number_lines t).count ≤
      ((q.foldl update_memory_space e).memory.number_lines t).count := by
  induction q generalizing e with
  | nil => exact le_refl _
  | cons x q ih =>
    simp only [List.foldl_cons]
    exact le_trans (update_count_mono e x t) (ih _)

theorem record_all_append (zs : Int) (p q : List Nat) :
    record_all zs (p ++ q) = q.foldl update_memory_space (record_all zs p) := by
  simp [record_all, List.foldl_append]

theorem run_count_take_le (zs : Int) (xs : List Nat) (k t : Nat) :
    ((record_all zs (xs.take k)).memory.number_lines t).count ≤
      ((record_all zs xs).memory.number_lines t).count := by
  have h := foldl_update_count_mono (xs.drop k) (record_all zs (xs.take k)) t
  rw [← record_all_append, List.take_append_drop] at h
  exact h

theorem run_count_ge_occurrences (zs : Int) (xs : List Nat) (t : Nat) :
    xs.count t ≤ ((record_all zs xs).memory.number_lines t).count := by
  induction xs using List.reverseRecOn with
  | nil => simp
  | append_singleton xs x ih =>
    rw [record_all_snoc, List.count_append]
    have hm := update_count_mono (record_all zs xs) x t
    by_cases h : t = x
    · subst h
      have hu := update_count (record_all zs xs) t t
      rw [if_pos rfl] at hu
      have h1 : List.count t [t] = 1 := by simp
      rw [hu, h1]
      omega
    · have h' : (x == t) = false := by
        simp only [beq_eq_false_iff_ne, ne_eq]
        exact fun e => h e.symm
      have h0 : List.count t [x] = 0 := by simp [List.count_cons, h']
      rw [h0]
      omega

theorem length_le_of_counts (n c : Nat) (xs : List Nat) (hlt : ∀ x ∈ xs, x < n)
    (hc : ∀ t, t < n → xs.count t ≤ c) : xs.length ≤ n * c := by
  induction n generalizing xs with
  | zero =>
    cases xs with
    | nil => simp
    | cons x xs => exact absurd (hlt x (List.mem_cons_self _ _)) (Nat.not_lt_zero _)
  | succ n ih =>
    have hsplit : xs.length = xs.count n + (xs.filter (fun x => !(x == n))).length := by
      rw [List.count_eq_countP, ← List.countP_eq_length_filter,
        List.length_eq_countP_add_countP (fun x => x == n) xs]
      congr 1
      apply List.countP_congr
      intro x _
      simp
    have hfl : ∀ x ∈ xs.filter (fun x => !(x == n)), x < n := by
      intro x hx
      have h1 := (List.mem_filter.mp hx).1
      have h2 : x ≠ n := by simpa using (List.mem_filter.mp hx).2
      have := hlt x h1
      omega
    have hfc : ∀ t, t < n → (xs.filter (fun x => !(x == n))).count t ≤ c := by
      intro t ht
      exact le_trans ((List.filter_sublist xs).count_le t) (hc t (by omega))
    have h1 := ih (xs.filter (fun x => !(x == n))) hfl hfc
    have h2 := hc n (Nat.lt_succ_self n)
    rw [hsplit, Nat.succ_mul]
    omega

/-- A run within capacity is short: its length is at most 256 times 2000. -/
theorem run_length_le (zs : Int) (xs : List Nat) (hrange : ∀ x ∈ xs, x < SYMBOL_RANGE)
    (hcap : within_capacity (record_all zs xs)) : xs.length ≤ 512000 := by
  have h := length_le_of_counts SYMBOL_RANGE MAX_PLACES xs hrange
    (fun t ht => le_trans (run_count_ge_occurrences zs xs t) (hcap t ht))
  exact h

/-- A run over the bytes `0..127` in which no number line outgrows its array
stays inside defined behaviour at every call. -/
theorem run_defined_of_capacity (zs : Int) (xs : List Nat) (hascii : ∀ x ∈ xs, x < 128)
    (hcap : within_capacity (record_all zs xs)) : run_defined zs xs := by
  have hrange : ∀ x ∈ xs, x < SYMBOL_RANGE := fun x hx =>
    lt_trans (hascii x hx) (by decide)
  intro k x hk
  have hklt : k < xs.length := by
    by_contra hge
    rw [List.getElem?_eq_none (by omega)] at hk
    simp at hk
  have hxmem : x ∈ xs := List.getElem?_mem hk
  have hx : x < SYMBOL_RANGE := hrange x hxmem
  have htake : xs.take (k + 1) = xs.take k ++ [x] := by
    rw [List.take_succ, hk]
    rfl
  have hnext : ∀ t, ((update_memory_space (record_all zs (xs.take k)) x).memory.number_lines
      t).count ≤ MAX_PLACES := by
    intro t
    by_cases ht : t < SYMBOL_RANGE
    · rw [← record_all_snoc, ← htake]
      exact le_trans (run_count_take_le zs xs (k + 1) t) (hcap t ht)
    · have hne : t ≠ x := by omega
      rw [update_count]
      simp only [hne, if_false, ht, false_and]
      have hnot : t ∉ xs.take k := fun hm => ht (hrange t (List.mem_of_mem_take hm))
      have := (run_count_pos_iff zs (xs.take k) t).not.mpr hnot
      omega
  have hprange : ∀ y ∈ xs.take k, y < SYMBOL_RANGE := fun y hy =>
    hrange y (List.mem_of_mem_take hy)
  have hlen := run_length_le zs xs hrange hcap
  have hplen : (xs.take k).length = k := by
    rw [List.length_take]
    omega
  refine ⟨hascii x hxmem, ?_, ?_, ?_, ?_, ?_, ?_⟩
  · have := hnext x
    rw [update_count] at this
    simp only [if_true] at this
    omega
  · intro hlp
    have hnot := (run_unseen_iff zs (xs.take k) x).mp hlp
    have hl := distinct_symbols_length_le (xs.take k ++ [x])
      (fun y hy => by
        rcases List.mem_append.mp hy with h | h
        · exact hprange y h
        · rw [List.mem_singleton.mp h]
          exact hx)
    rw [distinct_symbols_snoc] at hl
    simp only [hnot, if_false, List.length_append, List.length_singleton] at hl
    rw [(run_order zs (xs.take k) hprange).2]
    omega
  · intro hzs i hi hix hpos
    have := hnext i
    rw [update_count] at this
    simp only [hix, if_false, hi, hpos, hzs, ne_eq, not_false_eq_true, and_self, if_true] at this
    omega
  · rw [record_all_step]
    unfold INT_MIN
    omega
  · rw [record_all_step, hplen]
    unfold INT_MAX
    omega
  · intro hlp
    have hne : occurrence_steps (xs.take k) x ≠ [] := by
      rw [run_last_position] at hlp
      exact fun h0 => hlp ((last_step_eq_neg_one _).mpr h0)
    have h0 := last_step_nonneg _ hne
    have h1 : last_step (occurrence_steps (xs.take k) x) < ((xs.take k).length : Int) :=
      last_step_lt _ _ (fun p hp => occurrence_steps_lt (xs.take k) x p hp)
    rw [run_last_position, record_all_step, hplen] at *
    unfold INT_MIN INT_MAX
    omega

/-- Gaps are step differences, for the bytes `0..127`: in a run over such
bytes from the initial state in which no sequence outgrows its array, every
call is defined, and for every symbol the number of gap entries is the number
of its occurrences, its first gap entry is 0, and when consecutive occurrences
`k` and `k + 1` of the symbol are at steps `a` and `b`, its gap entry `k + 1`
is `b - a`. -/
theorem gap_is_step_difference (zs : Int) (input : List Nat) (t : Nat)
    (hascii : ∀ x ∈ input, x < 128) (ht : t < SYMBOL_RANGE)
    (hcap : within_capacity (record_all zs input)) :
    run_defined zs input ∧
      (((record_all zs input).memory.number_lines t).gaps.length =
        (occurrence_steps input t).length) ∧
      (t ∈ input → ((record_all zs input).memory.number_lines t).gaps[0]? = some 0) ∧
      (t ∈ input → ((record_all zs input).memory.number_lines t).seq[0]? = some 0) ∧
      ∀ k a b : Nat, (occurrence_steps input t)[k]? = some a →
        (occurrence_steps input t)[k + 1]? = some b →
        ((record_all zs input).memory.number_lines t).gaps[k + 1]? = some ((b : Int) - (a : Int)) := by
  have hline : ((record_all zs input).memory.number_lines t).count ≤ MAX_PLACES := hcap t ht
  have hg := run_gaps zs input t hline
  have hne : t ∈ input → occurrence_steps input t ≠ [] := fun hm h0 =>
    (occurrence_steps_eq_nil input t).mp h0 hm
  refine ⟨run_defined_of_capacity zs input hascii hcap, ?_, ?_, ?_, ?_⟩
  · rw [hg, expected_gaps_length]
  · intro hm
    rw [hg]
    exact expected_gaps_head _ (hne hm)
  · intro hm
    exact run_seq_head zs input t hm hline
  · intro k a b ha hb
    rw [hg]
    exact expected_gaps_getElem?_succ _ k a b ha hb

/-- The scenario of the specification: the input `"aabca"` recorded with zero
streaming disabled gives `'a'` the sequence `[0, 1, 3]`, and `'b'` and `'c'`
the sequence `[0]`. -/
theorem gap_is_step_difference_witness :
    (∀ x ∈ [97, 97, 98, 99, 97], x < 128) ∧ 97 < SYMBOL_RANGE ∧
    within_capacity (record_all 0 [97, 97, 98, 99, 97]) ∧
    (occurrence_steps [97, 97, 98, 99, 97] 97)[1]? = some 1 ∧
    (occurrence_steps [97, 97, 98, 99, 97] 97)[2]? = some 4 ∧
    ((record_all 0 [97, 97, 98, 99, 97]).memory.number_lines 97).gaps[2]? = some 3 ∧
    ((record_all 0 [97, 97, 98, 99, 97]).memory.number_lines 97).seq = [0, 1, 3] ∧
    ((record_all 0 [97, 97, 98, 99, 97]).memory.number_lines 98).seq = [0] ∧
    ((record_all 0 [97, 97, 98, 99, 97]).memory.number_lines 99).seq = [0] := by
  have hrange : ∀ x ∈ [97, 97, 98, 99, 97], x < 128 := by decide
  have ht : 97 < SYMBOL_RANGE := by decide
  have hcap : within_capacity (record_all 0 [97, 97, 98, 99, 97]) :=
    within_capacity_of_length 0 _ (by decide)
  have h1 : (occurrence_steps [97, 97, 98, 99, 97] 97)[1]? = some 1 := by decide
  have h2 : (occurrence_steps [97, 97, 98, 99, 97] 97)[2]? = some 4 := by decide
  have h := (gap_is_step_difference 0 [97, 97, 98, 99, 97] 97 hrange ht hcap).2.2.2.2 1 1 4 h1 h2
  refine ⟨hrange, ht, hcap, h1, h2, by simpa using h, ?_, ?_, ?_⟩
  · simp only [record_all, List.foldl_cons, List.foldl_nil, update_line, update_step, update_flag]
    simp [initial_encoder, initialize_memory_space, NumberLine.push, SYMBOL_RANGE, NumberLine.seq,
      MAX_PLACES, store]
    decide
  · simp only [record_all, List.foldl_cons, List.foldl_nil, update_line, update_step, update_flag]
    simp [initial_encoder, initialize_memory_space, NumberLine.push, SYMBOL_RANGE, NumberLine.seq,
      MAX_PLACES, store]
    decide
  · simp only [record_all, List.foldl_cons, List.foldl_nil, update_line, update_step, update_flag]
    simp [initial_encoder, initialize_memory_space, NumberLine.push, SYMBOL_RANGE, NumberLine.seq,
      MAX_PLACES, store]
    decide

/-- C3, refuted as stated: after recording `"aabca"` with zero streaming
enabled, `current_step` is 5 and `'b'`, first seen at step 2, is a tracked
symbol, but its sequence is `[0, -1, -1]`: its length is 3, not
`current_step`. -/
theorem dense_lengths_differ :
    (record_all 1 [97, 97, 98, 99, 97]).allow_zero_streaming ≠ 0 ∧
    (record_all 1 [97, 97, 98, 99, 97]).memory.current_step = 5 ∧
    (98 : Int) ∈ (record_all 1 [97, 97, 98, 99, 97]).memory.order ∧
    ((record_all 1 [97, 97, 98, 99, 97]).memory.number_lines 98).seq = [0, -1, -1] ∧
    (((record_all 1 [97, 97, 98, 99, 97]).memory.number_lines 98).seq.length : Int) ≠
      (record_all 1 [97, 97, 98, 99, 97]).memory.current_step := by
  have h : ((record_all 1 [97, 97, 98, 99, 97]).memory.number_lines 98).seq = [0, -1, -1] := by
    simp only [record_all, List.foldl_cons, List.foldl_nil, update_line, update_step, update_flag]
    simp [initial_encoder, initialize_memory_space, NumberLine.push, SYMBOL_RANGE, NumberLine.seq,
      MAX_PLACES, store]
    decide
  have hstep : (record_all 1 [97, 97, 98, 99, 97]).memory.current_step = 5 := by
    rw [record_all_step]
    rfl
  refine ⟨?_, hstep, ?_, h, ?_⟩
  · rw [record_all_flag]
    decide
  · rw [(run_order 1 [97, 97, 98, 99, 97] (by decide)).1]
    decide
  · rw [h, hstep]
    decide

/-- C3, amended: with zero streaming enabled, in a run over bytes `0..127` in
which no sequence outgrows its array, every call is defined and the sequence of
every tracked symbol has length `current_step - f`, where `f` is the step of
the symbol's first occurrence, and `current_step` is the number of recorded
symbols. -/
theorem dense_sequence_length (zs : Int) (input : List Nat) (t : Nat) (hzs : zs ≠ 0)
    (hascii : ∀ x ∈ input, x < 128) (hcap : within_capacity (record_all zs input))
    (ht : t ∈ input) :
    run_defined zs input ∧
      (((record_all zs input).memory.number_lines t).seq.length : Int) =
        (record_all zs input).memory.current_step - (input.indexOf t : Int) ∧
      (record_all zs input).memory.current_step = (input.length : Int) := by
  have hrange : ∀ x ∈ input, x < SYMBOL_RANGE := fun x hx =>
    lt_trans (hascii x hx) (by decide)
  refine ⟨run_defined_of_capacity zs input hascii hcap, ?_⟩
  have hc := hcap t (hrange t ht)
  have hd := run_count_dense zs input t hzs hrange ht
  rw [record_all_step, seq_length, Nat.min_eq_left hc]
  refine ⟨?_, rfl⟩
  omega

/-- Witness for C3 as amended (the scenario of the specification): after
recording `"aabca"` with zero streaming enabled the sequences of `'a'`, `'b'`
and `'c'`, first seen at steps 0, 2 and 3, have lengths 5, 3 and 2, with `-1`
at every step after the first occurrence at which the symbol did not occur. -/
theorem dense_sequence_length_witness :
    (1 : Int) ≠ 0 ∧ (∀ x ∈ [97, 97, 98, 99, 97], x < 128) ∧
    within_capacity (record_all 1 [97, 97, 98, 99, 97]) ∧ 99 ∈ [97, 97, 98, 99, 97] ∧
    (((record_all 1 [97, 97, 98, 99, 97]).memory.number_lines 99).seq.length : Int) = 5 - 3 ∧
    ((record_all 1 [97, 97, 98, 99, 97]).memory.number_lines 97).seq = [0, 1, -1, -1, 3] ∧
    ((record_all 1 [97, 97, 98, 99, 97]).memory.number_lines 98).seq = [0, -1, -1] ∧
    ((record_all 1 [97, 97, 98, 99, 97]).memory.number_lines 99).seq = [0, -1] := by
  have hzs : (1 : Int) ≠ 0 := by decide
  have hrange : ∀ x ∈ [97, 97, 98, 99, 97], x < 128 := by decide
  have hcap : within_capacity (record_all 1 [97, 97, 98, 99, 97]) :=
    within_capacity_of_length 1 _ (by decide)
  have hmem : 99 ∈ [97, 97, 98, 99, 97] := by decide
  have h := dense_sequence_length 1 [97, 97, 98, 99, 97] 99 hzs hrange hcap hmem
  have hidx : List.indexOf 99 [97, 97, 98, 99, 97] = 3 := by decide
  refine ⟨hzs, hrange, hcap, hmem, ?_, ?_, ?_, ?_⟩
  · rw [h.2.1, h.2.2, hidx]
    rfl
  · simp only [record_all, List.foldl_cons, List.foldl_nil, update_line, update_step, update_flag]
    simp [initial_encoder, initialize_memory_space, NumberLine.push, SYMBOL_RANGE, NumberLine.seq,
      MAX_PLACES, store]
    decide
  · simp only [record_all, List.foldl_cons, List.foldl_nil, update_line, update_step, update_flag]
    simp [initial_encoder, initialize_memory_space, NumberLine.push, SYMBOL_RANGE, NumberLine.seq,
      MAX_PLACES, store]
    decide
  · simp only [record_all, List.foldl_cons, List.foldl_nil, update_line, update_step, update_flag]
    simp [initial_encoder, initialize_memory_space, NumberLine.push, SYMBOL_RANGE, NumberLine.seq,
      MAX_PLACES, store]
    decide

/-- Sparse sequences, for the bytes `0..127`: with zero streaming disabled, in
a run over such bytes from the initial state in which no symbol occurs more
than `MAX_PLACES` (2000) times, every call is defined and the length of every
symbol's sequence, and its `count`, is the number of occurrences of the symbol
in the input. -/
theorem sparse_sequence_length (input : List Nat) (t : Nat)
    (hascii : ∀ x ∈ input, x < 128)
    (hcap : ∀ u ∈ input, input.count u ≤ MAX_PLACES) :
    run_defined 0 input ∧
      ((record_all 0 input).memory.number_lines t).seq.length = input.count t ∧
      ((record_all 0 input).memory.number_lines t).count = input.count t := by
  have hwithin : within_capacity (record_all 0 input) := by
    intro u _
    rw [run_count_sparse]
    by_cases hm : u ∈ input
    · exact hcap u hm
    · rw [List.count_eq_zero_of_not_mem hm]
      exact Nat.zero_le _
  refine ⟨run_defined_of_capacity 0 input hascii hwithin, ?_⟩
  have hc := run_count_sparse input t
  have hle : input.count t ≤ MAX_PLACES := by
    by_cases hm : t ∈ input
    · exact hcap t hm
    · rw [List.count_eq_zero_of_not_mem hm]
      exact Nat.zero_le _
  refine ⟨?_, hc⟩
  rw [seq_length, hc]
  exact Nat.min_eq_left hle

/-- In `"aabca"` the symbol `'a'` occurs three times and its sequence has three
entries. -/
theorem sparse_sequence_length_witness :
    (∀ x ∈ [97, 97, 98, 99, 97], x < 128) ∧
    (∀ u ∈ [97, 97, 98, 99, 97], List.count u [97, 97, 98, 99, 97] ≤ MAX_PLACES) ∧
    ((record_all 0 [97, 97, 98, 99, 97]).memory.number_lines 97).seq.length = 3 ∧
    ((record_all 0 [97, 97, 98, 99, 97]).memory.number_lines 97).count = 3 := by
  have hrange : ∀ x ∈ [97, 97, 98, 99, 97], x < 128 := by decide
  have hcap : ∀ u ∈ [97, 97, 98, 99, 97], List.count u [97, 97, 98, 99, 97] ≤ MAX_PLACES := by
    decide
  have h := sparse_sequence_length [97, 97, 98, 99, 97] 97 hrange hcap
  have hcount : List.count 97 [97, 97, 98, 99, 97] = 3 := by decide
  rw [hcount] at h
  exact ⟨hrange, hcap, h.2.1, h.2.2⟩

/-- C5, refuted as stated: after recording `'b'` and then 1999 times `'a'` with
zero streaming enabled, the tracked symbol `'b'` holds `MAX_PLACES` entries;
recording `'a'` once more does not append `-1` to the sequence of `'b'`. -/
theorem full_line_gets_no_placeholder :
    (98 : Nat) ≠ 97 ∧
    (record_all 1 (98 :: List.replicate 1999 97)).allow_zero_streaming ≠ 0 ∧
    ((record_all 1 (98 :: List.replicate 1999 97)).memory.number_lines 98).count = 2000 ∧
    ((update_memory_space (record_all 1 (98 :: List.replicate 1999 97)) 97).memory.number_lines
        98).seq ≠
      ((record_all 1 (98 :: List.replicate 1999 97)).memory.number_lines 98).seq ++ [-1] := by
  have hrange : ∀ x ∈ 98 :: List.replicate 1999 97, x < SYMBOL_RANGE := by
    intro x hx
    rcases List.mem_cons.mp hx with h | h
    · rw [h]
      decide
    · rw [(List.mem_replicate.mp h).2]
      decide
  have hd := run_count_dense 1 (98 :: List.replicate 1999 97) 98 (by decide) hrange
    (List.mem_cons_self _ _)
  have hcount : ((record_all 1 (98 :: List.replicate 1999 97)).memory.number_lines 98).count =
      2000 := by
    rw [List.indexOf_cons_self, List.length_cons, List.length_replicate] at hd
    omega
  refine ⟨by decide, ?_, hcount, ?_⟩
  · rw [record_all_flag]
    decide
  · rw [update_line_other _ _ _ (by decide), record_all_flag, hcount]
    have hcond : (98 < SYMBOL_RANGE ∧ 0 < 2000 ∧ (1 : Int) ≠ 0) := by decide
    rw [if_pos hcond, push_seq_full _ _ (by rw [hcount]; decide)]
    intro h
    have hl := congrArg List.length h
    rw [List.length_append, List.length_singleton] at hl
    omega

/-- C5, amended: for every encoder state and recorded symbol `s` for which the
call is defined (`update_defined`; in particular every number line that
receives an entry holds fewer than `MAX_PLACES` entries) and every other symbol
`t`: if zero streaming is disabled or `t` has no entries, the number line of
`t` (last position, count and entries) is unchanged; if zero streaming is
enabled and `t` has entries, `last_position` of `t` is unchanged and its
sequence is the old one with exactly one `-1` appended. -/
theorem update_memory_space_frame (e : Encoder) (s t : Nat) (hts : t ≠ s)
    (ht : t < SYMBOL_RANGE) (hdef : update_defined e s) :
    ((e.allow_zero_streaming = 0 ∨ (e.memory.number_lines t).count = 0) →
        (update_memory_space e s).memory.number_lines t = e.memory.number_lines t) ∧
      (e.allow_zero_streaming ≠ 0 → 0 < (e.memory.number_lines t).count →
        (e.memory.number_lines t).count < MAX_PLACES ∧
        ((update_memory_space e s).memory.number_lines t).last_position =
            (e.memory.number_lines t).last_position ∧
          ((update_memory_space e s).memory.number_lines t).seq =
            (e.memory.number_lines t).seq ++ [-1]) := by
  constructor
  · intro h
    rw [update_line_other _ _ _ hts]
    have hneg : ¬ (t < SYMBOL_RANGE ∧ 0 < (e.memory.number_lines t).count ∧
        e.allow_zero_streaming ≠ 0) := by
      rintro ⟨_, h1, h2⟩
      rcases h with h | h
      · exact h2 h
      · omega
    rw [if_neg hneg]
  · intro hzs hpos
    have hroom : (e.memory.number_lines t).count < MAX_PLACES :=
      hdef.2.2.2.1 hzs t ht hts hpos
    rw [update_line_other _ _ _ hts, if_pos ⟨ht, hpos, hzs⟩]
    exact ⟨hroom, rfl, push_seq _ _ hroom⟩

/-- Witness for C5 as amended: with zero streaming enabled and `'b'` tracked,
recording `'a'` is a defined call, appends `-1` to the sequence of `'b'` and
keeps its last position. -/
theorem update_memory_space_frame_witness :
    (98 : Nat) ≠ 97 ∧ 98 < SYMBOL_RANGE ∧ update_defined (record_all 1 [98]) 97 ∧
    (record_all 1 [98]).allow_zero_streaming ≠ 0 ∧
    0 < ((record_all 1 [98]).memory.number_lines 98).count ∧
    ((update_memory_space (record_all 1 [98]) 97).memory.number_lines 98).last_position = 0 ∧
    ((update_memory_space (record_all 1 [98]) 97).memory.number_lines 98).seq = [0, -1] := by
  have hdef : update_defined (record_all 1 [98]) 97 :=
    run_defined_of_capacity 1 [98, 97] (by decide) (within_capacity_of_length 1 _ (by decide))
      1 97 (by decide)
  have hzs : (record_all 1 [98]).allow_zero_streaming ≠ 0 := by
    rw [record_all_flag]
    decide
  have hcount : ((record_all 1 [98]).memory.number_lines 98).count = 1 := by
    simp only [record_all, List.foldl_cons, List.foldl_nil, update_line]
    simp [initial_encoder, initialize_memory_space, NumberLine.push]
  have hpos : 0 < ((record_all 1 [98]).memory.number_lines 98).count := by
    rw [hcount]
    decide
  have h := (update_memory_space_frame (record_all 1 [98]) 97 98 (by decide) (by decide)
    hdef).2 hzs hpos
  refine ⟨by decide, by decide, hdef, hzs, hpos, ?_, ?_⟩
  · rw [h.2.1]
    simp only [record_all, List.foldl_cons, List.foldl_nil, update_line]
    simp [initial_encoder, initialize_memory_space, NumberLine.push]
  · rw [h.2.2]
    simp only [record_all, List.foldl_cons, List.foldl_nil, update_line]
    simp [initial_encoder, initialize_memory_space, NumberLine.push, NumberLine.seq, MAX_PLACES,
      store]
    decide

/-- C6, the behaviour of the code at the capacity: after 2000 occurrences of
`'a'` (zero streaming disabled) its number line holds `MAX_PLACES` entries; the
next `update_memory_space` raises `count` to `MAX_PLACES + 1`, the index of its
store is `MAX_PLACES`, outside `values`, and nothing is refused. -/
theorem capacity_not_enforced :
    ((record_all 0 (List.replicate 2000 97)).memory.number_lines 97).count = MAX_PLACES ∧
    ((update_memory_space (record_all 0 (List.replicate 2000 97)) 97).memory.number_lines
        97).count = MAX_PLACES + 1 ∧
    ((record_all 0 (List.replicate 2001 97)).memory.number_lines 97).count = MAX_PLACES + 1 ∧
    ¬ ((record_all 0 (List.replicate 2001 97)).memory.number_lines 97).count ≤ MAX_PLACES := by
  have h0 : ((record_all 0 (List.replicate 2000 97)).memory.number_lines 97).count =
      MAX_PLACES := by
    rw [run_count_sparse, List.count_replicate_self]
    rfl
  have h1 : ((record_all 0 (List.replicate 2001 97)).memory.number_lines 97).count =
      MAX_PLACES + 1 := by
    rw [run_count_sparse, List.count_replicate_self]
    rfl
  refine ⟨h0, ?_, h1, ?_⟩
  · rw [update_count, h0]
    simp
  · rw [h1]
    simp

/-- Round trip, for the bytes `0..127`: in a run over such bytes from the
initial state in which no sequence outgrows its array, every call is defined,
and for every tracked symbol with first occurrence at step `s1`, the running
sums `s1 + (sum of the first k gap entries)`, `k = 1 ..` number of gap entries,
are exactly the steps at which the symbol occurred, in order, and
`last_position` is `s1` plus the sum of all gap entries. -/
theorem running_sums_are_occurrence_steps (zs : Int) (input : List Nat) (t s1 : Nat)
    (hascii : ∀ x ∈ input, x < 128) (ht : t < SYMBOL_RANGE)
    (hcap : within_capacity (record_all zs input))
    (hfirst : (occurrence_steps input t)[0]? = some s1) :
    run_defined zs input ∧
    (List.range ((record_all zs input).memory.number_lines t).gaps.length).map
        (fun k => (s1 : Int) +
          (((record_all zs input).memory.number_lines t).gaps.take (k + 1)).sum) =
        List.map (fun p : Nat => (p : Int)) (occurrence_steps input t) ∧
      ((record_all zs input).memory.number_lines t).last_position =
        (s1 : Int) + ((record_all zs input).memory.number_lines t).gaps.sum := by
  have hg := run_gaps zs input t (hcap t ht)
  rw [hg, run_last_position]
  refine ⟨run_defined_of_capacity zs input hascii hcap, ?_, (expected_gaps_sum _ s1 hfirst).symm⟩
  apply List.ext_getElem
  · simp [expected_gaps_length]
  · intro k h1 h2
    have hk : k < (occurrence_steps input t).length := by simpa using h2
    have hget : (occurrence_steps input t)[k]? = some ((occurrence_steps input t)[k]) :=
      List.getElem?_eq_getElem hk
    simp only [List.getElem_map, List.getElem_range]
    exact expected_gaps_take_sum _ k s1 _ hfirst hget

/-- In `"aabca"` the symbol `'a'` is first seen at step 0, its
gap entries are `[0, 1, 3]`, the running sums are its occurrence steps
`[0, 1, 4]` and its last position is 4. -/
theorem running_sums_are_occurrence_steps_witness :
    (∀ x ∈ [97, 97, 98, 99, 97], x < 128) ∧ 97 < SYMBOL_RANGE ∧
    within_capacity (record_all 1 [97, 97, 98, 99, 97]) ∧
    (occurrence_steps [97, 97, 98, 99, 97] 97)[0]? = some 0 ∧
    (List.range ((record_all 1 [97, 97, 98, 99, 97]).memory.number_lines 97).gaps.length).map
        (fun k => ((0 : Nat) : Int) +
          (((record_all 1 [97, 97, 98, 99, 97]).memory.number_lines 97).gaps.take (k + 1)).sum) =
        [0, 1, 4] ∧
    ((record_all 1 [97, 97, 98, 99, 97]).memory.number_lines 97).last_position =
        ((0 : Nat) : Int) + ((record_all 1 [97, 97, 98, 99, 97]).memory.number_lines 97).gaps.sum ∧
    ((record_all 1 [97, 97, 98, 99, 97]).memory.number_lines 97).last_position = 4 := by
  have hrange : ∀ x ∈ [97, 97, 98, 99, 97], x < 128 := by decide
  have ht : 97 < SYMBOL_RANGE := by decide
  have hcap : within_capacity (record_all 1 [97, 97, 98, 99, 97]) :=
    within_capacity_of_length 1 _ (by decide)
  have hfirst : (occurrence_steps [97, 97, 98, 99, 97] 97)[0]? = some 0 := by decide
  have h := running_sums_are_occurrence_steps 1 [97, 97, 98, 99, 97] 97 0 hrange ht hcap hfirst
  have hocc : List.map (fun p : Nat => (p : Int)) (occurrence_steps [97, 97, 98, 99, 97] 97) = [0, 1, 4] := by
    decide
  refine ⟨hrange, ht, hcap, hfirst, ?_, h.2.2, ?_⟩
  · rw [h.2.1, hocc]
  · simp only [record_all, List.foldl_cons, List.foldl_nil, update_line, update_step, update_flag]
    simp [initial_encoder, initialize_memory_space, NumberLine.push, SYMBOL_RANGE]

/-- The order of the tracked symbols, for the bytes `0..127`: in a run over
such bytes from the initial state in which no sequence outgrows its array,
`symbol_order[0..order_count)` has no duplicates and lists exactly the distinct
symbols of the input in the order of their first occurrence; a further call
that is defined appends its symbol when it was unseen (`last_position == -1`,
which holds exactly when it does not occur in the input so far) and otherwise
leaves the list as it is. -/
theorem symbol_order_first_occurrences (zs : Int) (input : List Nat)
    (hascii : ∀ x ∈ input, x < 128) (hcap : within_capacity (record_all zs input)) :
    (record_all zs input).memory.order =
        List.map (fun p : Nat => (p : Int)) (distinct_symbols input) ∧
      (record_all zs input).memory.order_count = (distinct_symbols input).length ∧
      (record_all zs input).memory.order.Nodup ∧
      (∀ x : Nat, (x : Int) ∈ (record_all zs input).memory.order ↔ x ∈ input) ∧
      (distinct_symbols input).Pairwise (fun a b => input.indexOf a < input.indexOf b) ∧
      ∀ s, update_defined (record_all zs input) s →
        (((record_all zs input).memory.number_lines s).last_position = -1 ↔ s ∉ input) ∧
        (update_memory_space (record_all zs input) s).memory.order =
          if ((record_all zs input).memory.number_lines s).last_position = -1 then
            (record_all zs input).memory.order ++ [(s : Int)]
          else (record_all zs input).memory.order := by
  have hrange : ∀ x ∈ input, x < SYMBOL_RANGE := fun x hx =>
    lt_trans (hascii x hx) (by decide)
  obtain ⟨h1, h2⟩ := run_order zs input hrange
  have hinj : Function.Injective (fun p : Nat => (p : Int)) := fun a b h => by simpa using h
  refine ⟨h1, h2, ?_, ?_, distinct_symbols_ordered input, ?_⟩
  · rw [h1]
    exact (nodup_distinct_symbols input).map hinj
  · intro x
    rw [h1, List.mem_map_of_injective hinj, mem_distinct_symbols]
  · intro s hdef
    have hs : s < SYMBOL_RANGE := lt_trans hdef.1 (by decide)
    refine ⟨run_unseen_iff zs input s, ?_⟩
    by_cases hl : ((record_all zs input).memory.number_lines s).last_position = -1
    · have hnot := (run_unseen_iff zs input s).mp hl
      have hrange' : ∀ x ∈ input ++ [s], x < SYMBOL_RANGE := by
        intro x hx
        rcases List.mem_append.mp hx with h | h
        · exact hrange x h
        · rw [List.mem_singleton.mp h]
          exact hs
      have hlen := distinct_symbols_length_le (input ++ [s]) hrange'
      rw [distinct_symbols_snoc] at hlen
      simp only [hnot, if_false, List.length_append, List.length_singleton] at hlen
      rw [if_pos hl, update_order_unseen _ _ hl (by rw [h2]; omega)]
    · rw [if_neg hl, update_order_seen _ _ hl]

/-- After `"aabca"` the tracked symbols are `a`, `b`, `c`; recording the unseen
`'d'` appends it, recording `'a'` again changes nothing. -/
theorem symbol_order_first_occurrences_witness :
    (∀ x ∈ [97, 97, 98, 99, 97], x < 128) ∧
    within_capacity (record_all 0 [97, 97, 98, 99, 97]) ∧
    update_defined (record_all 0 [97, 97, 98, 99, 97]) 100 ∧
    update_defined (record_all 0 [97, 97, 98, 99, 97]) 97 ∧
    (record_all 0 [97, 97, 98, 99, 97]).memory.order = [97, 98, 99] ∧
    (update_memory_space (record_all 0 [97, 97, 98, 99, 97]) 100).memory.order =
      [97, 98, 99, 100] ∧
    (update_memory_space (record_all 0 [97, 97, 98, 99, 97]) 97).memory.order = [97, 98, 99] := by
  have hrange : ∀ x ∈ [97, 97, 98, 99, 97], x < 128 := by decide
  have hcap : within_capacity (record_all 0 [97, 97, 98, 99, 97]) :=
    within_capacity_of_length 0 _ (by decide)
  have hd100 : update_defined (record_all 0 [97, 97, 98, 99, 97]) 100 :=
    run_defined_of_capacity 0 [97, 97, 98, 99, 97, 100] (by decide)
      (within_capacity_of_length 0 _ (by decide)) 5 100 (by decide)
  have hd97 : update_defined (record_all 0 [97, 97, 98, 99, 97]) 97 :=
    run_defined_of_capacity 0 [97, 97, 98, 99, 97, 97] (by decide)
      (within_capacity_of_length 0 _ (by decide)) 5 97 (by decide)
  have h := symbol_order_first_occurrences 0 [97, 97, 98, 99, 97] hrange hcap
  have hd : List.map (fun p : Nat => (p : Int)) (distinct_symbols [97, 97, 98, 99, 97]) =
      [97, 98, 99] := by decide
  have ho : (record_all 0 [97, 97, 98, 99, 97]).memory.order = [97, 98, 99] := by
    rw [h.1, hd]
  have h100 := h.2.2.2.2.2 100 hd100
  have h97 := h.2.2.2.2.2 97 hd97
  have hl100 : ((record_all 0 [97, 97, 98, 99, 97]).memory.number_lines 100).last_position =
      -1 := h100.1.mpr (by decide)
  have hl97 : ¬ ((record_all 0 [97, 97, 98, 99, 97]).memory.number_lines 97).last_position =
      -1 := fun hl => h97.1.mp hl (by decide)
  refine ⟨hrange, hcap, hd100, hd97, ho, ?_, ?_⟩
  · rw [h100.2, if_pos hl100, ho]
    rfl
  · rw [h97.2, if_neg hl97, ho]

/-! ## Claims about the symbol queue -/

/-- C10: for every queue state that satisfies the queue invariant and every
symbol: if `count == BUFFER_SIZE` (256), `add_symbol_to_buffer` reports that the
buffer is full and leaves the whole state unchanged; otherwise it stores the
lowercase-folded symbol at index `tail`, sets `tail` to `(tail + 1) mod 256`,
increments `count`, and leaves `head` and every other slot unchanged. -/
theorem add_symbol_to_buffer_spec (buffer : BufferSpace) (symbol : Nat)
    (hinv : queue_invariant buffer) :
    (buffer.count = BUFFER_SIZE →
        add_symbol_to_buffer buffer symbol = (buffer, some buffer_full_message)) ∧
      (buffer.count ≠ BUFFER_SIZE →
        (add_symbol_to_buffer buffer symbol).2 = none ∧
        (add_symbol_to_buffer buffer symbol).1.symbols buffer.tail = tolower symbol ∧
        (add_symbol_to_buffer buffer symbol).1.tail = (buffer.tail + 1) % 256 ∧
        (add_symbol_to_buffer buffer symbol).1.count = buffer.count + 1 ∧
        (add_symbol_to_buffer buffer symbol).1.head = buffer.head ∧
        ∀ j, j ≠ buffer.tail →
          (add_symbol_to_buffer buffer symbol).1.symbols j = buffer.symbols j) := by
  obtain ⟨hc, _, ht⟩ := hinv
  constructor
  · intro h
    have : ¬ buffer.count < BUFFER_SIZE := by omega
    simp [add_symbol_to_buffer, this]
  · intro h
    have hlt : buffer.count < BUFFER_SIZE := by omega
    unfold add_symbol_to_buffer
    rw [if_pos hlt]
    refine ⟨rfl, ?_, rfl, rfl, rfl, ?_⟩
    · simp [store, ht]
    · intro j hj
      simp [store, ht, hj]

/-- Witness for C10: enqueuing `'A'` into the initial queue stores `'a'` at
index 0 and moves `tail` to 1. -/
theorem add_symbol_to_buffer_spec_witness :
    queue_invariant initialize_buffer_space ∧
    initialize_buffer_space.count ≠ BUFFER_SIZE ∧
    (add_symbol_to_buffer initialize_buffer_space 65).2 = none ∧
    (add_symbol_to_buffer initialize_buffer_space 65).1.symbols 0 = 97 ∧
    (add_symbol_to_buffer initialize_buffer_space 65).1.tail = 1 ∧
    (add_symbol_to_buffer initialize_buffer_space 65).1.count = 1 ∧
    (add_symbol_to_buffer initialize_buffer_space 65).1.head = 0 := by
  have hinv : queue_invariant initialize_buffer_space := by
    simp [queue_invariant, initialize_buffer_space, BUFFER_SIZE]
  have hne : initialize_buffer_space.count ≠ BUFFER_SIZE := by decide
  have h := (add_symbol_to_buffer_spec initialize_buffer_space 65 hinv).2 hne
  exact ⟨hinv, hne, h.1, h.2.1, h.2.2.1, h.2.2.2.1, h.2.2.2.2.1⟩

/-- C9: starting from the initial queue and enqueuing `xs` with no dequeue in
between, the enqueue of the symbol at position `i` is accepted when
`i < BUFFER_SIZE` (256) and otherwise reports a full buffer and leaves the
queue unchanged; the following `min(n, 256)` dequeues return the lowercase
forms of the accepted symbols in enqueue order and leave the queue empty. -/
theorem bounded_fifo (xs : List Nat) :
    (∀ i x, xs[i]? = some x →
        (i < BUFFER_SIZE →
          (add_symbol_to_buffer (enqueue_all initialize_buffer_space (xs.take i)) x).2 = none ∧
          (add_symbol_to_buffer (enqueue_all initialize_buffer_space (xs.take i)) x).1.count =
            i + 1) ∧
        (BUFFER_SIZE ≤ i →
          add_symbol_to_buffer (enqueue_all initialize_buffer_space (xs.take i)) x =
            (enqueue_all initialize_buffer_space (xs.take i), some buffer_full_message))) ∧
      (enqueue_all initialize_buffer_space xs).count = min xs.length BUFFER_SIZE ∧
      (dequeue_n (min xs.length BUFFER_SIZE) (enqueue_all initialize_buffer_space xs)).1 =
        (xs.take BUFFER_SIZE).map tolower ∧
      (dequeue_n (min xs.length BUFFER_SIZE) (enqueue_all initialize_buffer_space xs)).2.count =
        0 := by
  obtain ⟨s1, s2, _, s4⟩ := enqueue_all_state xs
  refine ⟨?_, s2, ?_, ?_⟩
  · intro i x hx
    have hi : i < xs.length := by
      by_contra hge
      rw [List.getElem?_eq_none (by omega)] at hx
      simp at hx
    have hc := (enqueue_all_state (xs.take i)).2.1
    rw [List.length_take, Nat.min_eq_left (le_of_lt hi)] at hc
    constructor
    · intro hlt
      have hc' : (enqueue_all initialize_buffer_space (xs.take i)).count < BUFFER_SIZE := by
        rw [hc]
        omega
      unfold add_symbol_to_buffer
      rw [if_pos hc']
      refine ⟨rfl, ?_⟩
      show (enqueue_all initialize_buffer_space (xs.take i)).count + 1 = i + 1
      rw [hc]
      omega
    · intro hge
      have hc' : ¬ (enqueue_all initialize_buffer_space (xs.take i)).count < BUFFER_SIZE := by
        rw [hc]
        omega
      unfold add_symbol_to_buffer
      rw [if_neg hc']
  · have hd := dequeue_n_spec (min xs.length BUFFER_SIZE) (enqueue_all initialize_buffer_space xs)
      (by rw [s2]) (by rw [s1]; omega)
    rw [hd.1, s1]
    apply List.ext_getElem
    · simp [List.length_take]
      omega
    · intro k h1 h2
      have hk : k < min xs.length BUFFER_SIZE := by simpa using h1
      have hkl : k < xs.length := by omega
      simp only [List.getElem_map, List.getElem_range, List.getElem_take, Nat.zero_add]
      exact s4 k _ (by omega) (List.getElem?_eq_getElem hkl)
  · have hd := dequeue_n_spec (min xs.length BUFFER_SIZE) (enqueue_all initialize_buffer_space xs)
      (by rw [s2]) (by rw [s1]; omega)
    rw [hd.2.1, s2]
    omega

/-- Witness for C9: enqueuing `"ABc"` and dequeuing three times returns
`"abc"` and leaves the queue empty; of 257 enqueues of `'A'` the last one
(position 256) is refused and leaves the queue as it is. -/
theorem bounded_fifo_witness :
    [65, 66, 99][1]? = some 66 ∧ 1 < BUFFER_SIZE ∧
    (add_symbol_to_buffer (enqueue_all initialize_buffer_space ([65, 66, 99].take 1)) 66).2 =
      none ∧
    (dequeue_n 3 (enqueue_all initialize_buffer_space [65, 66, 99])).1 = [97, 98, 99] ∧
    (dequeue_n 3 (enqueue_all initialize_buffer_space [65, 66, 99])).2.count = 0 ∧
    (List.replicate 257 65)[256]? = some 65 ∧ BUFFER_SIZE ≤ 256 ∧
    add_symbol_to_buffer
        (enqueue_all initialize_buffer_space ((List.replicate 257 65).take 256)) 65 =
      (enqueue_all initialize_buffer_space ((List.replicate 257 65).take 256),
        some buffer_full_message) := by
  have h := bounded_fifo [65, 66, 99]
  have hx : [65, 66, 99][1]? = some 66 := by decide
  have hlt : 1 < BUFFER_SIZE := by decide
  have hmin : min [65, 66, 99].length BUFFER_SIZE = 3 := by decide
  have hmap : ([65, 66, 99].take BUFFER_SIZE).map tolower = [97, 98, 99] := by decide
  rw [hmin, hmap] at h
  have hy : (List.replicate 257 65)[256]? = some 65 := by
    rw [List.getElem?_replicate]
    decide
  have hge : BUFFER_SIZE ≤ 256 := by decide
  exact ⟨hx, hlt, ((h.1 1 66 hx).1 hlt).1, h.2.2.1, h.2.2.2, hy, hge,
    ((bounded_fifo (List.replicate 257 65)).1 256 65 hy).2 hge⟩

/-! ## Claims about dequeuing and the queue invariant -/

/-- C11, refuted as stated: after enqueuing the byte 0 into the initial queue
the queue is not empty (`count` is 1), yet `remove_symbol_from_buffer` returns
the byte 0, the value it returns for an empty queue. -/
theorem empty_signal_from_nonempty_queue :
    queue_invariant (add_symbol_to_buffer initialize_buffer_space 0).1 ∧
    (add_symbol_to_buffer initialize_buffer_space 0).1.count = 1 ∧
    (remove_symbol_from_buffer (add_symbol_to_buffer initialize_buffer_space 0).1).1 = 0 ∧
    ¬ ((remove_symbol_from_buffer (add_symbol_to_buffer initialize_buffer_space 0).1).1 = 0 ↔
        (add_symbol_to_buffer initialize_buffer_space 0).1.count = 0) := by
  have hc : (add_symbol_to_buffer initialize_buffer_space 0).1.count = 1 := by decide
  have hr : (remove_symbol_from_buffer (add_symbol_to_buffer initialize_buffer_space 0).1).1 =
      0 := by decide
  refine ⟨by unfold queue_invariant; decide, hc, hr, ?_⟩
  rw [hc, hr]
  decide

/-- C11, amended: for every queue state that satisfies the queue invariant,
`remove_symbol_from_buffer` returns the byte 0 and leaves the state unchanged
when `count == 0`; otherwise it returns the symbol stored at index `head`, sets
`head` to `(head + 1) mod 256`, decrements `count`, and leaves `tail` and the
stored symbols unchanged.  From a non-empty queue the byte 0 is returned
exactly when the slot at `head` holds the byte 0. -/
theorem remove_symbol_from_buffer_spec (buffer : BufferSpace)
    (hinv : queue_invariant buffer) :
    (buffer.count = 0 → remove_symbol_from_buffer buffer = (0, buffer)) ∧
      (buffer.count ≠ 0 →
        (remove_symbol_from_buffer buffer).1 = buffer.symbols buffer.head ∧
        (remove_symbol_from_buffer buffer).2.head = (buffer.head + 1) % 256 ∧
        (remove_symbol_from_buffer buffer).2.count = buffer.count - 1 ∧
        (remove_symbol_from_buffer buffer).2.tail = buffer.tail ∧
        (remove_symbol_from_buffer buffer).2.symbols = buffer.symbols ∧
        ((remove_symbol_from_buffer buffer).1 = 0 ↔ buffer.symbols buffer.head = 0)) := by
  constructor
  · intro h
    have : ¬ buffer.count > 0 := by omega
    simp [remove_symbol_from_buffer, this]
  · intro h
    have hpos : buffer.count > 0 := by omega
    unfold remove_symbol_from_buffer
    rw [if_pos hpos]
    exact ⟨rfl, rfl, rfl, rfl, rfl, Iff.rfl⟩

/-- Witness for C11 as amended: dequeuing from the queue that holds the single
symbol `'a'` returns `'a'`, moves `head` to 1 and leaves the queue empty. -/
theorem remove_symbol_from_buffer_spec_witness :
    queue_invariant (add_symbol_to_buffer initialize_buffer_space 65).1 ∧
    (add_symbol_to_buffer initialize_buffer_space 65).1.count ≠ 0 ∧
    (remove_symbol_from_buffer (add_symbol_to_buffer initialize_buffer_space 65).1).1 = 97 ∧
    (remove_symbol_from_buffer (add_symbol_to_buffer initialize_buffer_space 65).1).2.head = 1 ∧
    (remove_symbol_from_buffer (add_symbol_to_buffer initialize_buffer_space 65).1).2.count =
      0 := by
  have hinv : queue_invariant (add_symbol_to_buffer initialize_buffer_space 65).1 := by
    unfold queue_invariant
    decide
  have hne : (add_symbol_to_buffer initialize_buffer_space 65).1.count ≠ 0 := by decide
  have h := (remove_symbol_from_buffer_spec _ hinv).2 hne
  refine ⟨hinv, hne, ?_, ?_, ?_⟩
  · rw [h.1]
    decide
  · rw [h.2.1]
    decide
  · rw [h.2.2.1]
    decide

theorem queue_invariant_add (buffer : BufferSpace) (symbol : Nat)
    (h : queue_invariant buffer) : queue_invariant (add_symbol_to_buffer buffer symbol).1 := by
  obtain ⟨hc, hh, ht⟩ := h
  unfold add_symbol_to_buffer
  by_cases hlt : buffer.count < BUFFER_SIZE
  · rw [if_pos hlt]
    refine ⟨?_, hh, ?_⟩
    · show buffer.count + 1 ≤ BUFFER_SIZE
      omega
    · show (buffer.tail + 1) % BUFFER_SIZE < BUFFER_SIZE
      exact Nat.mod_lt _ (by decide)
  · rw [if_neg hlt]
    exact ⟨hc, hh, ht⟩

theorem queue_invariant_remove (buffer : BufferSpace) (h : queue_invariant buffer) :
    queue_invariant (remove_symbol_from_buffer buffer).2 := by
  obtain ⟨hc, hh, ht⟩ := h
  unfold remove_symbol_from_buffer
  by_cases hpos : buffer.count > 0
  · rw [if_pos hpos]
    refine ⟨?_, ?_, ht⟩
    · show buffer.count - 1 ≤ BUFFER_SIZE
      omega
    · show (buffer.head + 1) % BUFFER_SIZE < BUFFER_SIZE
      exact Nat.mod_lt _ (by decide)
  · rw [if_neg hpos]
    exact ⟨hc, hh, ht⟩

/-- C12: every queue state reached from `initialize_buffer_space` by a
sequence of enqueue and dequeue calls has `0 <= count <= 256`,
`0 <= head < 256` and `0 <= tail < 256`. -/
theorem queue_invariant_reachable (ops : List QueueOp) :
    (run_ops ops).count ≤ 256 ∧ (run_ops ops).head < 256 ∧ (run_ops ops).tail < 256 := by
  have h : queue_invariant (run_ops ops) := by
    induction ops using List.reverseRecOn with
    | nil =>
      unfold queue_invariant
      decide
    | append_singleton ops op ih =>
      have hs : run_ops (ops ++ [op]) = apply_op (run_ops ops) op := by
        simp [run_ops, List.foldl_append]
      rw [hs]
      cases op with
      | enqueue symbol => exact queue_invariant_add _ _ ih
      | dequeue => exact queue_invariant_remove _ ih
  exact h

/-! ## Claims about `convert_to_base36` -/

theorem digit_at_of_lt (i : Int) (h0 : 0 ≤ i) (h1 : i < 36) :
    ∃ d, digit_at i = some d ∧ digits[i.toNat]? = some d := by
  have hlen : digits.length = 36 := by decide
  have hi : i.toNat < digits.length := by
    rw [hlen]
    omega
  refine ⟨digits[i.toNat], ?_, List.getElem?_eq_getElem hi⟩
  unfold digit_at
  rw [if_pos h0]
  exact List.getElem?_eq_getElem hi

theorem digit_at_of_ge (i : Int) (h : 36 ≤ i) : digit_at i = none := by
  have hlen : digits.length = 36 := by decide
  unfold digit_at
  rw [if_pos (by omega)]
  apply List.getElem?_eq_none
  rw [hlen]
  omega

/-- C13: for every value in `0..35`, `convert_to_base36` returns the
one-character string `digits[value]`; for every value in `36..1295` it returns
exactly the two characters `digits[value / 36]`, `digits[value % 36]`; so
`0`, `35`, `36` and `1295` are rendered as `"0"`, `"z"`, `"10"` and `"zz"`. -/
theorem convert_to_base36_spec :
    (∀ value : Int, 0 ≤ value → value ≤ 35 →
        ∃ d0, digits[value.toNat]? = some d0 ∧
          convert_to_base36 value = some (String.mk [d0])) ∧
      (∀ value : Int, 36 ≤ value → value ≤ 1295 →
        ∃ d0 d1, digits[(value / 36).toNat]? = some d0 ∧
          digits[(value % 36).toNat]? = some d1 ∧
          convert_to_base36 value = some (String.mk [d0, d1])) ∧
      convert_to_base36 0 = some "0" ∧ convert_to_base36 35 = some "z" ∧
      convert_to_base36 36 = some "10" ∧ convert_to_base36 1295 = some "zz" := by
  refine ⟨?_, ?_, by decide, by decide, by decide, by decide⟩
  · intro value h0 h1
    obtain ⟨d, hd, hg⟩ := digit_at_of_lt value h0 (by omega)
    refine ⟨d, hg, ?_⟩
    unfold convert_to_base36
    rw [if_pos (by omega), hd]
  · intro value h0 h1
    obtain ⟨d0, hd0, hg0⟩ := digit_at_of_lt (value / 36) (by omega) (by omega)
    obtain ⟨d1, hd1, hg1⟩ := digit_at_of_lt (value % 36) (by omega) (by omega)
    refine ⟨d0, d1, hg0, hg1, ?_⟩
    unfold convert_to_base36
    rw [if_neg (by omega), hd0, hd1]

/-- Witness for C13: the values 7 and 100 are rendered as `"7"` and `"2s"`. -/
theorem convert_to_base36_spec_witness :
    (0 : Int) ≤ 7 ∧ (7 : Int) ≤ 35 ∧ convert_to_base36 7 = some "7" ∧
    (36 : Int) ≤ 100 ∧ (100 : Int) ≤ 1295 ∧ convert_to_base36 100 = some "2s" := by
  obtain ⟨d, hd, h⟩ := convert_to_base36_spec.1 7 (by decide) (by decide)
  obtain ⟨d0, d1, hd0, hd1, h2⟩ := convert_to_base36_spec.2.1 100 (by decide) (by decide)
  have e : d = '7' := by
    have : digits[(7 : Int).toNat]? = some '7' := by decide
    rw [this] at hd
    exact (Option.some.inj hd).symm
  have e0 : d0 = '2' := by
    have : digits[((100 : Int) / 36).toNat]? = some '2' := by decide
    rw [this] at hd0
    exact (Option.some.inj hd0).symm
  have e1 : d1 = 's' := by
    have : digits[((100 : Int) % 36).toNat]? = some 's' := by decide
    rw [this] at hd1
    exact (Option.some.inj hd1).symm
  subst e e0 e1
  exact ⟨by decide, by decide, h, by decide, by decide, h2⟩

/-- C14, the behaviour of the code for a value from 1296 on: the first digit is
read at index `value / 36`, which is at least 36 and so not the index of a
digit; nothing is rejected and the value is not reduced modulo 1296.  For 1296
the read is `digits[36]`, while the rendering of `1296 mod 1296 = 0` would be
`"0"`. -/
theorem convert_to_base36_out_of_table :
    (∀ value : Int, 1296 ≤ value →
        36 ≤ value / 36 ∧ digit_at (value / 36) = none ∧ convert_to_base36 value = none) ∧
      (1296 : Int) / 36 = 36 ∧ convert_to_base36 1296 = none ∧
      convert_to_base36 (1296 % 1296) = some "0" := by
  refine ⟨?_, by decide, by decide, by decide⟩
  intro value h
  have hq : 36 ≤ value / 36 := by omega
  have hd := digit_at_of_ge (value / 36) hq
  refine ⟨hq, hd, ?_⟩
  unfold convert_to_base36
  rw [if_neg (by omega), hd]

/-! ## The driver -/

theorem update_buffer (e : Encoder) (s : Nat) : (update_memory_space e s).buffer = e.buffer := by
  simp only [update_memory_space]

theorem update_memory_congr (e1 e2 : Encoder) (s : Nat) (hm : e1.memory = e2.memory)
    (hf : e1.allow_zero_streaming = e2.allow_zero_streaming) :
    (update_memory_space e1 s).memory = (update_memory_space e2 s).memory := by
  simp only [update_memory_space]
  rw [hm, hf]

theorem foldl_update_congr (xs : List Nat) (e1 e2 : Encoder) (hm : e1.memory = e2.memory)
    (hf : e1.allow_zero_streaming = e2.allow_zero_streaming) :
    (xs.foldl update_memory_space e1).memory = (xs.foldl update_memory_space e2).memory := by
  induction xs generalizing e1 e2 with
  | nil => exact hm
  | cons x xs ih =>
    simp only [List.foldl_cons]
    exact ih _ _ (update_memory_congr e1 e2 x hm hf) (by rw [update_flag, update_flag, hf])

theorem tolower_eq_zero (c : Nat) : tolower c = 0 ↔ c = 0 := by
  by_cases h : 65 ≤ c ∧ c ≤ 90
  · have e : tolower c = c + 32 := if_pos h
    rw [e]
    constructor <;> intro h0 <;> omega
  · have e : tolower c = c := if_neg h
    rw [e]

theorem process_symbols_empty (fuel : Nat) (e : Encoder) (h : e.buffer.count = 0) :
    process_symbols fuel e = some e := by
  have hn : ¬ e.buffer.count > 0 := by omega
  cases fuel with
  | zero => simp [process_symbols, hn]
  | succ f => simp [process_symbols, hn]

/-- One byte of the input, taken with the queue empty and `head = tail`: the
enqueue is accepted, the loop of `process_symbols` ends after one iteration,
the queue is empty again, and the byte, folded to lowercase, is recorded unless
it is the byte 0. -/
theorem encode_byte_spec (fuel : Nat) (e : Encoder) (ch : Nat) (hfuel : 1 ≤ fuel)
    (hc : e.buffer.count = 0) (hht : e.buffer.head = e.buffer.tail)
    (ht : e.buffer.tail < BUFFER_SIZE) :
    (add_symbol_to_buffer e.buffer ch).2 = none ∧
      (add_symbol_to_buffer e.buffer ch).1.count = 1 ∧
      encode_byte fuel e ch =
        some (process_step { e with buffer := (add_symbol_to_buffer e.buffer ch).1 }) ∧
      (process_step { e with buffer := (add_symbol_to_buffer e.buffer ch).1 }).buffer.count = 0 ∧
      (process_step { e with buffer := (add_symbol_to_buffer e.buffer ch).1 }).buffer.head =
        (process_step { e with buffer := (add_symbol_to_buffer e.buffer ch).1 }).buffer.tail ∧
      (process_step { e with buffer := (add_symbol_to_buffer e.buffer ch).1 }).buffer.tail <
        BUFFER_SIZE ∧
      (process_step { e with buffer := (add_symbol_to_buffer e.buffer ch).1 }).allow_zero_streaming =
        e.allow_zero_streaming ∧
      (process_step { e with buffer := (add_symbol_to_buffer e.buffer ch).1 }).memory =
        if ch = 0 then e.memory else (update_memory_space e (tolower ch)).memory := by
  have hlt : e.buffer.count < BUFFER_SIZE := by
    rw [hc]
    decide
  have hadd : add_symbol_to_buffer e.buffer ch =
      ({ e.buffer with
          symbols := store BUFFER_SIZE e.buffer.symbols e.buffer.tail (tolower ch),
          tail := (e.buffer.tail + 1) % BUFFER_SIZE,
          count := e.buffer.count + 1 }, none) := by
    unfold add_symbol_to_buffer
    rw [if_pos hlt]
  have hsym : store BUFFER_SIZE e.buffer.symbols e.buffer.tail (tolower ch) e.buffer.head =
      tolower ch := by
    simp [store, ht, hht]
  have hstep : process_step { e with buffer := (add_symbol_to_buffer e.buffer ch).1 } =
      (if tolower ch ≠ 0 then
        update_memory_space
          { e with buffer :=
              { e.buffer with
                symbols := store BUFFER_SIZE e.buffer.symbols e.buffer.tail (tolower ch),
                tail := (e.buffer.tail + 1) % BUFFER_SIZE,
                head := (e.buffer.head + 1) % BUFFER_SIZE,
                count := 0 } } (tolower ch)
      else
        { e with buffer :=
            { e.buffer with
              symbols := store BUFFER_SIZE e.buffer.symbols e.buffer.tail (tolower ch),
              tail := (e.buffer.tail + 1) % BUFFER_SIZE,
              head := (e.buffer.head + 1) % BUFFER_SIZE,
              count := 0 } }) := by
    rw [hadd]
    simp only [process_step, remove_symbol_from_buffer, hc, Nat.zero_add, gt_iff_lt,
      Nat.lt_one_iff, Nat.pos_of_ne_zero, if_true, hsym, Nat.sub_self, zero_lt_one]
  have hcount : (process_step { e with buffer := (add_symbol_to_buffer e.buffer ch).1 }).buffer.count
      = 0 := by
    rw [hstep]
    split_ifs
    · rw [update_buffer]
    · rfl
  refine ⟨by rw [hadd], by rw [hadd, hc], ?_, hcount, ?_, ?_, ?_, ?_⟩
  · unfold encode_byte
    obtain ⟨f, rfl⟩ : ∃ f, fuel = f + 1 := ⟨fuel - 1, by omega⟩
    have hpos : (add_symbol_to_buffer e.buffer ch).1.count > 0 := by
      rw [hadd]
      exact Nat.succ_pos _
    rw [process_symbols, if_pos hpos]
    exact process_symbols_empty _ _ hcount
  · rw [hstep]
    split_ifs
    · rw [update_buffer]
      simp only [hht]
    · simp only [hht]
  · rw [hstep]
    split_ifs
    · rw [update_buffer]
      exact Nat.mod_lt _ (by decide)
    · exact Nat.mod_lt _ (by decide)
  · rw [hstep]
    split_ifs
    · rw [update_flag]
    · rfl
  · by_cases h0 : ch = 0
    · have hz : ¬ tolower ch ≠ 0 := fun h => h ((tolower_eq_zero ch).mpr h0)
      rw [hstep, if_neg hz, if_pos h0]
    · have hz : tolower ch ≠ 0 := fun h => h0 ((tolower_eq_zero ch).mp h)
      rw [hstep, if_pos hz, if_neg h0]
      exact update_memory_congr _ _ _ rfl rfl

/-- The bytes read by the loop of `read_file_and_encode`: those before the
first byte 255. -/
theorem encode_bytes_spec (fuel : Nat) (bytes : List Nat) (e : Encoder)
    (hfuel : 1 ≤ fuel) (hc : e.buffer.count = 0) (hht : e.buffer.head = e.buffer.tail)
    (ht : e.buffer.tail < BUFFER_SIZE) :
    ∃ e1, bytes.foldlM (encode_byte fuel) e = some e1 ∧
      e1.buffer.count = 0 ∧ e1.buffer.head = e1.buffer.tail ∧ e1.buffer.tail < BUFFER_SIZE ∧
      e1.allow_zero_streaming = e.allow_zero_streaming ∧
      e1.memory =
        (((bytes.map tolower).filter (fun c => c ≠ 0)).foldl update_memory_space e).memory := by
  induction bytes generalizing e with
  | nil => exact ⟨e, rfl, hc, hht, ht, rfl, rfl⟩
  | cons b bs ih =>
    obtain ⟨_, _, h3, h4, h5, h6, h7, h8⟩ := encode_byte_spec fuel e b hfuel hc hht ht
    obtain ⟨e1, r1, r2, r3, r4, r5, r6⟩ := ih _ h4 h5 h6
    refine ⟨e1, ?_, r2, r3, r4, r5.trans h7, ?_⟩
    · rw [List.foldlM_cons, h3]
      exact r1
    · rw [r6]
      by_cases h0 : b = 0
      · have hz : tolower b = 0 := (tolower_eq_zero b).mpr h0
        rw [if_pos h0] at h8
        simp only [List.map_cons, hz, ne_eq, not_true_eq_false, decide_False, Bool.false_eq_true,
          not_false_eq_true, List.filter_cons_of_neg]
        exact foldl_update_congr _ _ _ h8 h7
      · have hz : tolower b ≠ 0 := fun h => h0 ((tolower_eq_zero b).mp h)
        rw [if_neg h0] at h8
        simp only [List.map_cons, ne_eq, hz, not_false_eq_true, decide_True,
          List.filter_cons_of_pos, List.foldl_cons]
        exact foldl_update_congr _ _ _ h8 (by rw [h7, update_flag])

/-- The reading loop, started with the queue empty and `head = tail`: it
returns with the queue empty again, and the memory is the one obtained by
recording the lowercase forms of the bytes read, other than 0, in order. -/
theorem read_file_and_encode_spec (fuel : Nat) (bytes : List Nat) (e : Encoder)
    (hfuel : 1 ≤ fuel) (hc : e.buffer.count = 0) (hht : e.buffer.head = e.buffer.tail)
    (ht : e.buffer.tail < BUFFER_SIZE) :
    ∃ e1, read_file_and_encode fuel bytes e = some e1 ∧
      e1.buffer.count = 0 ∧ e1.buffer.head = e1.buffer.tail ∧ e1.buffer.tail < BUFFER_SIZE ∧
      e1.allow_zero_streaming = e.allow_zero_streaming ∧
      e1.memory =
        ((((bytes.takeWhile (fun b => b ≠ 255)).map tolower).filter
          (fun c => c ≠ 0)).foldl update_memory_space e).memory :=
  encode_bytes_spec fuel (bytes.takeWhile (fun b => b ≠ 255)) e hfuel hc hht ht

theorem filter_tolower_length (bytes : List Nat) :
    ((bytes.map tolower).filter (fun c => c ≠ 0)).length =
      (bytes.filter (fun b => b ≠ 0)).length := by
  induction bytes with
  | nil => rfl
  | cons b bs ih =>
    by_cases h0 : b = 0
    · subst h0
      have hz : tolower 0 = 0 := by decide
      simpa [hz] using ih
    · have hz : tolower b ≠ 0 := fun h => h0 ((tolower_eq_zero b).mp h)
      simpa [h0, hz] using ih

theorem initial_encoder_queue (zs : Int) :
    (initial_encoder zs).buffer.count = 0 ∧
      (initial_encoder zs).buffer.head = (initial_encoder zs).buffer.tail ∧
      (initial_encoder zs).buffer.tail < BUFFER_SIZE := by
  refine ⟨rfl, rfl, ?_⟩
  show 0 < BUFFER_SIZE
  decide

/-! ## Claims about the driver -/

/-- C15, refuted as stated: the driver, given the single byte 0, returns with
`current_step` still 0, while recording `tolower(0)` from the initial state
gives `current_step` 1, the number of input bytes. -/
theorem zero_byte_not_recorded :
    ∃ e, read_file_and_encode 1 [0] (initial_encoder 0) = some e ∧
      e.memory.current_step = 0 ∧
      (record_all 0 (List.map tolower [0])).memory.current_step = 1 ∧
      e.memory ≠ (record_all 0 (List.map tolower [0])).memory := by
  obtain ⟨h1, h2, h3⟩ := initial_encoder_queue 0
  obtain ⟨e, r1, _, _, _, _, r6⟩ :=
    read_file_and_encode_spec 1 [0] (initial_encoder 0) (le_refl 1) h1 h2 h3
  have hf : ((List.takeWhile (fun b => b ≠ 255) [0]).map tolower).filter (fun c => c ≠ 0) = [] := by
    decide
  rw [hf] at r6
  have hs : e.memory.current_step = 0 := by
    rw [r6]
    rfl
  have hr : (record_all 0 (List.map tolower [0])).memory.current_step = 1 := by
    rw [record_all_step]
    rfl
  refine ⟨e, r1, hs, hr, ?_⟩
  intro heq
  rw [heq, hr] at hs
  exact absurd hs (by decide)

/-- C15, amended: for every finite input sequence of bytes `0..127` whose
recording lets no sequence outgrow its array, the driver
(`add_symbol_to_buffer` followed by `process_symbols` for each byte, with at
least one loop iteration allowed) reads every byte and returns, every call of
`update_memory_space` it makes is defined, and the memory it leaves is the
state obtained by recording, from the initial state and in arrival order, the
lowercase forms of the input bytes other than the byte 0; `current_step` is
the number of bytes other than 0. -/
theorem driver_records_nonzero_bytes (zs : Int) (fuel : Nat) (bytes : List Nat)
    (hfuel : 1 ≤ fuel) (hascii : ∀ b ∈ bytes, b < 128)
    (hcap : within_capacity (record_all zs ((bytes.map tolower).filter (fun c => c ≠ 0)))) :
    bytes.takeWhile (fun b => b ≠ 255) = bytes ∧
    run_defined zs ((bytes.map tolower).filter (fun c => c ≠ 0)) ∧
    ∃ e, read_file_and_encode fuel bytes (initial_encoder zs) = some e ∧
      e.memory = (record_all zs ((bytes.map tolower).filter (fun c => c ≠ 0))).memory ∧
      e.memory.current_step = (((bytes.filter (fun b => b ≠ 0)).length : Nat) : Int) := by
  have htw : bytes.takeWhile (fun b => b ≠ 255) = bytes := by
    rw [List.takeWhile_eq_self_iff]
    intro b hb
    have hlt := hascii b hb
    have hne : b ≠ 255 := by omega
    exact decide_eq_true hne
  have hlow : ∀ c ∈ (bytes.map tolower).filter (fun c => c ≠ 0), c < 128 := by
    intro c hc
    obtain ⟨hm, _⟩ := List.mem_filter.mp hc
    obtain ⟨b, hb, rfl⟩ := List.mem_map.mp hm
    have hlt := hascii b hb
    unfold tolower
    by_cases hu : 65 ≤ b ∧ b ≤ 90
    · rw [if_pos hu]
      omega
    · rw [if_neg hu]
      exact hlt
  obtain ⟨h1, h2, h3⟩ := initial_encoder_queue zs
  obtain ⟨e, r1, _, _, _, _, r6⟩ :=
    read_file_and_encode_spec fuel bytes (initial_encoder zs) hfuel h1 h2 h3
  rw [htw] at r6
  refine ⟨htw, run_defined_of_capacity zs _ hlow hcap, e, r1, r6, ?_⟩
  rw [r6]
  have := record_all_step zs ((bytes.map tolower).filter (fun c => c ≠ 0))
  rw [filter_tolower_length] at this
  exact this

/-- Witness for C15 as amended: the bytes `'a'`, 0, `'B'` leave the memory of
recording `"ab"`, with `current_step` 2. -/
theorem driver_records_nonzero_bytes_witness :
    1 ≤ 1 ∧ (∀ b ∈ [97, 0, 66], b < 128) ∧
    within_capacity (record_all 0 ((List.map tolower [97, 0, 66]).filter (fun c => c ≠ 0))) ∧
    run_defined 0 [97, 98] ∧
    ∃ e, read_file_and_encode 1 [97, 0, 66] (initial_encoder 0) = some e ∧
      e.memory = (record_all 0 [97, 98]).memory ∧ e.memory.current_step = 2 := by
  have hascii : ∀ b ∈ [97, 0, 66], b < 128 := by decide
  have hcap : within_capacity
      (record_all 0 ((List.map tolower [97, 0, 66]).filter (fun c => c ≠ 0))) :=
    within_capacity_of_length 0 _ (by decide)
  obtain ⟨_, hd, e, h1, h2, h3⟩ :=
    driver_records_nonzero_bytes 0 1 [97, 0, 66] (le_refl 1) hascii hcap
  have hf : (List.map tolower [97, 0, 66]).filter (fun c => c ≠ 0) = [97, 98] := by decide
  have hl : (([97, 0, 66] : List Nat).filter (fun b => b ≠ 0)).length = 2 := by decide
  rw [hf] at h2 hd
  rw [hl] at h3
  exact ⟨le_refl 1, hascii, hcap, hd, e, h1, h2, h3⟩

/-- C17: under the driving discipline, for every input byte sequence the
driver returns with the queue empty; for the next byte the enqueue is accepted
(the buffer-full branch is not taken) and leaves exactly one pending symbol,
and the loop of `process_symbols` ends after one iteration, which leaves the
queue empty again.  As this holds after every input, it holds at every point
of a run. -/
theorem queue_holds_at_most_one (zs : Int) (fuel : Nat) (bytes : List Nat)
    (hfuel : 1 ≤ fuel) :
    ∃ e, read_file_and_encode fuel bytes (initial_encoder zs) = some e ∧
      e.buffer.count = 0 ∧
      ∀ ch : Nat,
        (add_symbol_to_buffer e.buffer ch).2 = none ∧
        (add_symbol_to_buffer e.buffer ch).1.count = 1 ∧
        encode_byte fuel e ch =
          some (process_step { e with buffer := (add_symbol_to_buffer e.buffer ch).1 }) ∧
        (process_step { e with buffer := (add_symbol_to_buffer e.buffer ch).1 }).buffer.count =
          0 := by
  obtain ⟨h1, h2, h3⟩ := initial_encoder_queue zs
  obtain ⟨e, r1, r2, r3, r4, _, _⟩ :=
    read_file_and_encode_spec fuel bytes (initial_encoder zs) hfuel h1 h2 h3
  refine ⟨e, r1, r2, ?_⟩
  intro ch
  obtain ⟨a1, a2, a3, a4, _⟩ := encode_byte_spec fuel e ch hfuel r2 r3 r4
  exact ⟨a1, a2, a3, a4⟩

/-- Witness for C17: with one loop iteration allowed the driver returns on the
input `"ab"` with the queue empty, and the enqueue of a further byte is
accepted. -/
theorem queue_holds_at_most_one_witness :
    1 ≤ 1 ∧
    ∃ e, read_file_and_encode 1 [97, 98] (initial_encoder 0) = some e ∧
      e.buffer.count = 0 ∧ (add_symbol_to_buffer e.buffer 99).2 = none ∧
      (add_symbol_to_buffer e.buffer 99).1.count = 1 := by
  obtain ⟨e, h1, h2, h3⟩ := queue_holds_at_most_one 0 1 [97, 98] (le_refl 1)
  exact ⟨le_refl 1, e, h1, h2, (h3 99).1, (h3 99).2.1⟩

/-! ## Zero marks the first occurrence -/

theorem seq_length_pos (nl : NumberLine) (h : 0 < nl.count) : 0 < nl.seq.length := by
  rw [seq_length]
  have : 0 < MAX_PLACES := by decide
  omega

/-- The first entry of the sequence of a symbol that has occurred is 0, also
when the number line has outgrown its array. -/
theorem run_seq_first (zs : Int) (xs : List Nat) (t : Nat) (ht : t ∈ xs) :
    ((record_all zs xs).memory.number_lines t).seq[0]? = some 0 := by
  induction xs using List.reverseRecOn with
  | nil => simp at ht
  | append_singleton xs x ih =>
    rw [record_all_snoc]
    by_cases hm : t ∈ xs
    · have ih' := ih hm
      by_cases htx : t = x
      · subst htx
        rw [update_line_self]
        exact push_seq_head _ _ _ (by rw [seq_with_last_position]; exact ih')
      · rw [update_line_other _ _ _ htx]
        split_ifs
        · exact push_seq_head _ _ _ ih'
        · exact ih'
    · have hx : t = x := by
        rcases List.mem_append.mp ht with h | h
        · exact absurd h hm
        · simpa using h
      subst hx
      have hc : ((record_all zs xs).memory.number_lines t).count = 0 := by
        have := (run_count_pos_iff zs xs t).not.mpr hm
        omega
      have hlp : ((record_all zs xs).memory.number_lines t).last_position = -1 :=
        (run_unseen_iff zs xs t).mpr hm
      rw [update_line_self, hlp, push_seq _ _ (by rw [count_with_last_position, hc]; decide),
        seq_with_last_position, seq_eq_nil_of_count _ hc]
      simp

theorem push_seq_later (nl : NumberLine) (g : Int)
    (hold : ∀ j v, 0 < j → nl.seq[j]? = some v → v = -1 ∨ 1 ≤ v)
    (hg : 0 < nl.seq.length → g = -1 ∨ 1 ≤ g) :
    ∀ j v, 0 < j → (nl.push g).seq[j]? = some v → v = -1 ∨ 1 ≤ v := by
  intro j v hj hv
  by_cases hc : nl.count < MAX_PLACES
  · rw [push_seq _ _ hc] at hv
    by_cases hjl : j < nl.seq.length
    · rw [List.getElem?_append_left hjl] at hv
      exact hold j v hj hv
    · rw [List.getElem?_append_right (by omega)] at hv
      have hidx : j - nl.seq.length = 0 := by
        by_contra hne
        rw [List.getElem?_eq_none (by simp; omega)] at hv
        simp at hv
      rw [hidx] at hv
      simp at hv
      subst hv
      exact hg (by omega)
  · rw [push_seq_full _ _ (by omega)] at hv
    exact hold j v hj hv

/-- Every entry of a sequence after the first is `-1` or at least 1. -/
theorem run_seq_later (zs : Int) (xs : List Nat) (t : Nat) :
    ∀ j v, 0 < j → ((record_all zs xs).memory.number_lines t).seq[j]? = some v →
      v = -1 ∨ 1 ≤ v := by
  induction xs using List.reverseRecOn with
  | nil =>
    intro j v _ hv
    simp [record_all_nil, initial_encoder, initialize_memory_space, NumberLine.seq] at hv
  | append_singleton xs x ih =>
    rw [record_all_snoc]
    by_cases htx : t = x
    · subst htx
      rw [update_line_self]
      apply push_seq_later
      · intro j v hj hv
        rw [seq_with_last_position] at hv
        exact ih j v hj hv
      · intro hlen
        rw [seq_with_last_position] at hlen
        have hcount : 0 < ((record_all zs xs).memory.number_lines t).count := by
          by_contra h0
          rw [seq_eq_nil_of_count _ (by omega)] at hlen
          simp at hlen
        have hm := (run_count_pos_iff zs xs t).mp hcount
        have hseen : ¬ ((record_all zs xs).memory.number_lines t).last_position = -1 :=
          fun h => (run_unseen_iff zs xs t).mp h hm
        rw [if_neg hseen]
        right
        have hb : last_step (occurrence_steps xs t) < (xs.length : Int) :=
          last_step_lt _ _ (fun p hp => occurrence_steps_lt xs t p hp)
        rw [run_last_position, record_all_step]
        omega
    · rw [update_line_other _ _ _ htx]
      split_ifs
      · exact push_seq_later _ _ ih (fun _ => Or.inl rfl)
      · exact ih

/-- Zero marks the first occurrence, for the bytes `0..127`: in a run over such
bytes from the initial state in which no sequence outgrows its array, every
call is defined, and for every tracked symbol the entry at index 0 of its
sequence is 0 and every later entry that is a gap (not `-1`) is at least 1; a
stored gap is 0 exactly at the first occurrence. -/
theorem zero_marks_first_occurrence (zs : Int) (input : List Nat) (t : Nat)
    (hascii : ∀ x ∈ input, x < 128) (hcap : within_capacity (record_all zs input))
    (ht : t ∈ input) :
    run_defined zs input ∧
    ((record_all zs input).memory.number_lines t).seq[0]? = some 0 ∧
      (∀ j v, 0 < j → ((record_all zs input).memory.number_lines t).seq[j]? = some v →
        v ≠ -1 → 1 ≤ v) ∧
      (∀ j : Nat, ((record_all zs input).memory.number_lines t).seq[j]? = some (0 : Int) ↔ j = 0) := by
  have h0 := run_seq_first zs input t ht
  have hl := run_seq_later zs input t
  refine ⟨run_defined_of_capacity zs input hascii hcap, h0, ?_, ?_⟩
  · intro j v hj hv hne
    rcases hl j v hj hv with h | h
    · exact absurd h hne
    · exact h
  · intro j
    constructor
    · intro hv
      by_contra hj
      rcases hl j 0 (by omega) hv with h | h
      · exact absurd h (by decide)
      · exact absurd h (by decide)
    · intro hj
      rw [hj]
      exact h0

/-- In `"aabca"` with zero streaming enabled the sequence of
`'a'` is `[0, 1, -1, -1, 3]`: 0 at index 0, the gap 3 at index 4. -/
theorem zero_marks_first_occurrence_witness :
    (∀ x ∈ [97, 97, 98, 99, 97], x < 128) ∧ 97 ∈ [97, 97, 98, 99, 97] ∧
    ((record_all 1 [97, 97, 98, 99, 97]).memory.number_lines 97).seq[0]? = some 0 ∧
    ((record_all 1 [97, 97, 98, 99, 97]).memory.number_lines 97).seq[4]? = some 3 ∧
    (1 : Int) ≤ 3 := by
  have hrange : ∀ x ∈ [97, 97, 98, 99, 97], x < 128 := by decide
  have hmem : 97 ∈ [97, 97, 98, 99, 97] := by decide
  have h := (zero_marks_first_occurrence 1 [97, 97, 98, 99, 97] 97 hrange
    (within_capacity_of_length 1 _ (by decide)) hmem).2
  have hseq : ((record_all 1 [97, 97, 98, 99, 97]).memory.number_lines 97).seq =
      [0, 1, -1, -1, 3] := by
    simp only [record_all, List.foldl_cons, List.foldl_nil, update_line, update_step, update_flag]
    simp [initial_encoder, initialize_memory_space, NumberLine.push, SYMBOL_RANGE, NumberLine.seq,
      MAX_PLACES, store]
    decide
  have h4 : ((record_all 1 [97, 97, 98, 99, 97]).memory.number_lines 97).seq[4]? = some 3 := by
    rw [hseq]
    rfl
  exact ⟨hrange, hmem, h.1, h4, h.2.1 4 3 (by decide) h4 (by decide)⟩

theorem foldl_append_map {α β : Type} (g : α → β) (l : List α) (init : List β) :
    l.foldl (fun out i => out ++ [g i]) init = init ++ l.map g := by
  induction l generalizing init with
  | nil => simp
  | cons a l ih => simp [ih]

theorem foldl_append_flatMap {α β : Type} (f : α → List β) (l : List α) (init : List β) :
    l.foldl (fun out i => out ++ f i) init = init ++ l.flatMap f := by
  induction l generalizing init with
  | nil => simp
  | cons a l ih => simp [ih]

/-- The calls of the inner loop, started at index `j0` with `fuel` iterations
allowed: call number `d` exists exactly when the loop test and the test on the
entry pass for all indices `j0 .. j0 + d`, and it prints the entry of index
`j0 + d`. -/
theorem print_column_calls (nl : NumberLine) (zs rows x : Int) (fuel j0 : Nat) :
    (∀ d, d < (print_column nl zs rows x fuel j0).length ↔
        (d < fuel ∧ ∀ k, k ≤ d →
          (((j0 + k : Nat) : Int) < rows - 2 ∧ j0 + k < nl.count) ∧
            (nl.values (nl.count - (j0 + k) - 1) ≠ -1 ∨ zs ≠ 0))) ∧
      (∀ d, d < (print_column nl zs rows x fuel j0).length →
        (print_column nl zs rows x fuel j0)[d]? =
          some (DrawCall.mvprintw (((j0 + d : Nat) : Int) + 2) x
            (convert_to_base36
              (if nl.values (nl.count - (j0 + d) - 1) ≠ -1 then
                nl.values (nl.count - (j0 + d) - 1) else 0)))) := by
  induction fuel generalizing j0 with
  | zero =>
    simp [print_column]
  | succ fuel ih =>
    obtain ⟨ih1, ih2⟩ := ih (j0 + 1)
    by_cases h1 : ((j0 : Nat) : Int) < rows - 2 ∧ j0 < nl.count
    · by_cases h2 : nl.values (nl.count - j0 - 1) ≠ -1 ∨ zs ≠ 0
      · have hdef : print_column nl zs rows x (fuel + 1) j0 =
            DrawCall.mvprintw ((j0 : Int) + 2) x
                (convert_to_base36
                  (if nl.values (nl.count - j0 - 1) ≠ -1 then nl.values (nl.count - j0 - 1)
                   else 0)) ::
              print_column nl zs rows x fuel (j0 + 1) := by
          rw [print_column]
          rw [if_pos h1]
          simp only []
          rw [if_pos h2]
        rw [hdef]
        constructor
        · intro d
          cases d with
          | zero =>
            simp only [List.length_cons, Nat.zero_lt_succ, true_iff, Nat.le_zero]
            refine ⟨trivial, ?_⟩
            intro k hk
            subst hk
            exact ⟨h1, h2⟩
          | succ d =>
            simp only [List.length_cons, Nat.add_lt_add_iff_right]
            rw [ih1 d]
            constructor
            · rintro ⟨hd, hall⟩
              refine ⟨hd, ?_⟩
              intro k hk
              cases k with
              | zero => exact ⟨h1, h2⟩
              | succ k =>
                have := hall k (by omega)
                have e : j0 + (k + 1) = j0 + 1 + k := by omega
                rw [e]
                exact this
            · rintro ⟨hd, hall⟩
              refine ⟨hd, ?_⟩
              intro k hk
              have := hall (k + 1) (by omega)
              have e : j0 + (k + 1) = j0 + 1 + k := by omega
              rw [e] at this
              exact this
        · intro d hd
          cases d with
          | zero => simp
          | succ d =>
            simp only [List.length_cons, Nat.add_lt_add_iff_right] at hd
            rw [List.getElem?_cons_succ, ih2 d hd]
            have e : j0 + 1 + d = j0 + (d + 1) := by omega
            rw [e]
      · have hdef : print_column nl zs rows x (fuel + 1) j0 = [] := by
          rw [print_column]
          rw [if_pos h1]
          simp only []
          rw [if_neg h2]
        rw [hdef]
        constructor
        · intro d
          simp only [List.length_nil, Nat.not_lt_zero, false_iff, not_and]
          intro _ hall
          exact h2 (hall 0 (Nat.zero_le _)).2
        · intro d hd
          simp at hd
    · have hdef : print_column nl zs rows x (fuel + 1) j0 = [] := by
        rw [print_column]
        rw [if_neg h1]
      rw [hdef]
      constructor
      · intro d
        simp only [List.length_nil, Nat.not_lt_zero, false_iff, not_and]
        intro _ hall
        exact h1 (hall 0 (Nat.zero_le _)).1
      · intro d hd
        simp at hd

theorem nat_eq_of_lt_iff (a b : Nat) (h : ∀ d, d < a ↔ d < b) : a = b := by
  by_contra hne
  rcases Nat.lt_or_gt_of_ne hne with hlt | hgt
  · exact absurd ((h a).mpr hlt) (Nat.lt_irrefl a)
  · exact absurd ((h b).mp hgt) (Nat.lt_irrefl b)

/-- The cells of one column: call number `j` of the inner loop of
`print_mixed_radix_form` prints, at row `j + 2`, `convert_to_base36` of the
entry `values[count - 1 - j]` (of 0 for an entry `-1`), for every `j` below
`rows - 2` and `count` up to which the loop has not stopped; with zero
streaming allowed the loop prints all `min(rows - 2, count)` cells, without it
the column stops at the first entry `-1`. -/
theorem print_column_cells (nl : NumberLine) (zs rows x : Int) :
    (∀ j : Nat, (j : Int) < rows - 2 → j < nl.count →
      (∀ k, k ≤ j → nl.values (nl.count - k - 1) ≠ -1 ∨ zs ≠ 0) →
      (print_column nl zs rows x nl.count 0)[j]? =
        some (DrawCall.mvprintw ((j : Int) + 2) x
          (convert_to_base36
            (if nl.values (nl.count - j - 1) ≠ -1 then nl.values (nl.count - j - 1)
             else 0)))) ∧
    (∀ j : Nat, j < (print_column nl zs rows x nl.count 0).length →
      (j : Int) < rows - 2 ∧ j < nl.count ∧
        ∀ k, k ≤ j → nl.values (nl.count - k - 1) ≠ -1 ∨ zs ≠ 0) ∧
    (zs ≠ 0 →
      (print_column nl zs rows x nl.count 0).length = min (rows - 2).toNat nl.count) ∧
    (zs = 0 → ∀ j : Nat, nl.values (nl.count - j - 1) = -1 →
      (print_column nl zs rows x nl.count 0).length ≤ j) := by
  obtain ⟨h1, h2⟩ := print_column_calls nl zs rows x nl.count 0
  have hlen : ∀ j : Nat, j < (print_column nl zs rows x nl.count 0).length ↔
      ((j : Int) < rows - 2 ∧ j < nl.count ∧
        ∀ k, k ≤ j → nl.values (nl.count - k - 1) ≠ -1 ∨ zs ≠ 0) := by
    intro j
    rw [h1 j]
    simp only [Nat.zero_add]
    constructor
    · rintro ⟨hj, hall⟩
      exact ⟨(hall j (le_refl j)).1.1, hj, fun k hk => (hall k hk).2⟩
    · rintro ⟨hr, hj, hall⟩
      refine ⟨hj, fun k hk => ⟨⟨?_, ?_⟩, hall k hk⟩⟩
      · have : (k : Int) ≤ (j : Int) := by exact_mod_cast hk
        omega
      · omega
  refine ⟨?_, ?_, ?_, ?_⟩
  · intro j hr hj hall
    have := h2 j ((hlen j).mpr ⟨hr, hj, hall⟩)
    simpa only [Nat.zero_add] using this
  · intro j hj
    exact (hlen j).mp hj
  · intro hzs
    apply nat_eq_of_lt_iff
    intro d
    rw [hlen d]
    constructor
    · rintro ⟨hr, hd, _⟩
      omega
    · intro hd
      refine ⟨by omega, by omega, fun k _ => Or.inr hzs⟩
  · intro hzs j hv
    by_contra hlt
    have hj := (hlen j).mp (by omega)
    rcases hj.2.2 j (le_refl j) with h | h
    · exact h hv
    · exact h hzs

/-- C18, refuted as stated: in the snapshot `snapshot_with_negative_symbol`
one symbol is tracked and its entry of `symbol_order` is `-56` (the value of
`(int)symbol` for the byte 200 held in a signed `char`, which
`update_memory_space` writes to `symbol_order` in its branch for an unseen
symbol).  The code takes the entry as index of `number_lines`, where it is no
index of the array: `print_mixed_radix_form` reads outside `number_lines`, and
no cell shows an entry of that symbol. -/
theorem negative_symbol_not_rendered :
    snapshot_with_negative_symbol.order_count = 1 ∧
    snapshot_with_negative_symbol.symbol_order (1 - 0 - 1) = -56 ∧
    ¬ (0 ≤ snapshot_with_negative_symbol.symbol_order (1 - 0 - 1)) ∧
    column_readable snapshot_with_negative_symbol 24 0 = false ∧
    print_mixed_radix_form snapshot_with_negative_symbol 0 24 80 = none := by
  refine ⟨rfl, rfl, by decide, by decide, by decide⟩

/-- C18, amended: for every display size and every snapshot in which the reads
of the renderer fall inside their arrays (`column_readable` for every column:
at most 256 tracked symbols, every entry of `symbol_order[0..order_count)` a
symbol index `0..255`, and at most `MAX_PLACES` entries in the number line of
each of them when `rows > 2`), `print_mixed_radix_form` returns the labels,
the line and the columns.  The label of column `i`, drawn at `x = 4 * i`, is
`symbol_order[order_count - i - 1]`, and the column of that symbol follows the
inner loop: the cell at row `j + 2` prints `convert_to_base36` of the entry
`values[count - 1 - j]` (of 0 for an entry `-1`) for every `j` below `rows - 2`
and `count` up to which the loop has not stopped; with zero streaming allowed
the loop prints all `min(rows - 2, count)` cells, without it the column stops
at the first entry `-1`. -/
theorem renderer_grid (memory : MemorySpace) (zs rows cols : Int)
    (hread : ∀ i, i < memory.order_count → column_readable memory rows i = true) :
    print_mixed_radix_form memory zs rows cols =
        some (List.map
            (fun i : Nat => DrawCall.mvaddch 0 ((i : Int) * 4)
              (memory.symbol_order (memory.order_count - i - 1)))
            (List.range memory.order_count) ++
          [DrawCall.mvhline 1 0 '-' cols] ++
          (List.range memory.order_count).flatMap
            (fun i : Nat => print_column (column_line memory i) zs rows ((i : Int) * 4)
              (column_line memory i).count 0)) ∧
      ∀ i : Nat, i < memory.order_count →
        (memory.order_count - i - 1 < SYMBOL_RANGE ∧
          0 ≤ memory.symbol_order (memory.order_count - i - 1) ∧
          memory.symbol_order (memory.order_count - i - 1) < SYMBOL_RANGE ∧
          (2 < rows → (column_line memory i).count ≤ MAX_PLACES)) ∧
        (∀ j : Nat, (j : Int) < rows - 2 → j < (column_line memory i).count →
          (∀ k, k ≤ j →
            (column_line memory i).values ((column_line memory i).count - k - 1) ≠ -1 ∨
              zs ≠ 0) →
          (print_column (column_line memory i) zs rows ((i : Int) * 4)
              (column_line memory i).count 0)[j]? =
            some (DrawCall.mvprintw ((j : Int) + 2) ((i : Int) * 4)
              (convert_to_base36
                (if (column_line memory i).values ((column_line memory i).count - j - 1) ≠ -1
                 then (column_line memory i).values ((column_line memory i).count - j - 1)
                 else 0)))) ∧
        (∀ j : Nat,
          j < (print_column (column_line memory i) zs rows ((i : Int) * 4)
              (column_line memory i).count 0).length →
          (j : Int) < rows - 2 ∧ j < (column_line memory i).count ∧
            (column_line memory i).count - j - 1 < MAX_PLACES ∧
            ∀ k, k ≤ j →
              (column_line memory i).values ((column_line memory i).count - k - 1) ≠ -1 ∨
                zs ≠ 0) ∧
        (zs ≠ 0 →
          (print_column (column_line memory i) zs rows ((i : Int) * 4)
              (column_line memory i).count 0).length =
            min (rows - 2).toNat (column_line memory i).count) ∧
        (zs = 0 → ∀ j : Nat,
          (column_line memory i).values ((column_line memory i).count - j - 1) = -1 →
          (print_column (column_line memory i) zs rows ((i : Int) * 4)
              (column_line memory i).count 0).length ≤ j) := by
  constructor
  · have hall : (List.range memory.order_count).all (column_readable memory rows) = true := by
      rw [List.all_eq_true]
      intro i hi
      exact hread i (List.mem_range.mp hi)
    unfold print_mixed_radix_form
    rw [if_pos hall]
    simp only [foldl_append_map, foldl_append_flatMap, List.nil_append, column_line]
  · intro i hi
    have hr := hread i hi
    unfold column_readable at hr
    simp only [Bool.and_eq_true, Bool.or_eq_true, decide_eq_true_eq] at hr
    obtain ⟨⟨⟨hr1, hr2⟩, hr3⟩, hr4⟩ := hr
    have hcap : 2 < rows → (column_line memory i).count ≤ MAX_PLACES := by
      intro h2
      rcases hr4 with h | h
      · omega
      · exact h
    obtain ⟨c1, c2, c3, c4⟩ :=
      print_column_cells (column_line memory i) zs rows ((i : Int) * 4)
    refine ⟨⟨hr1, hr2, hr3, hcap⟩, c1, ?_, c3, c4⟩
    intro j hj
    obtain ⟨d1, d2, d3⟩ := c2 j hj
    refine ⟨d1, d2, ?_, d3⟩
    have hrows : 2 < rows := by
      have : (0 : Int) ≤ (j : Int) := Int.ofNat_nonneg j
      omega
    have := hcap hrows
    omega

/-- Witness for C18 as amended: the snapshot after `"bab"` on a display of 24
rows and 80 columns with zero streaming allowed.  The most recently introduced
symbol `'a'` is the leftmost column; every column shows its entries newest
first, an entry `-1` as `"0"`. -/
theorem renderer_grid_witness :
    (∀ i, i < snapshot_after_bab.order_count → column_readable snapshot_after_bab 24 i = true) ∧
    print_mixed_radix_form snapshot_after_bab 1 24 80 =
      some [DrawCall.mvaddch 0 0 97, DrawCall.mvaddch 0 4 98, DrawCall.mvhline 1 0 '-' 80,
        DrawCall.mvprintw 2 0 (some "0"), DrawCall.mvprintw 3 0 (some "0"),
        DrawCall.mvprintw 2 4 (some "2"), DrawCall.mvprintw 3 4 (some "0"),
        DrawCall.mvprintw 4 4 (some "0")] ∧
    (print_column (column_line snapshot_after_bab 1) 1 24 (((1 : Nat) : Int) * 4)
        (column_line snapshot_after_bab 1).count 0).length = 3 := by
  have hread : ∀ i, i < snapshot_after_bab.order_count →
      column_readable snapshot_after_bab 24 i = true := by decide
  have h := renderer_grid snapshot_after_bab 1 24 80 hread
  refine ⟨hread, ?_, ?_⟩
  · rw [h.1]
    decide
  · rw [(h.2 1 (by decide)).2.2.2.1 (by decide)]
    decide

/-! ## The pattern of placeholders -/

/-- With zero streaming, entry `j` of the sequence of a tracked symbol first
seen at step `f` is a gap exactly when the symbol is the input of step
`f + j`. -/
theorem run_seq_pattern (zs : Int) (xs : List Nat) (t : Nat) (hzs : zs ≠ 0)
    (hrange : ∀ x ∈ xs, x < SYMBOL_RANGE) (ht : t ∈ xs)
    (hcap : ((record_all zs xs).memory.number_lines t).count ≤ MAX_PLACES) :
    ∀ (j : Nat) (v : Int), ((record_all zs xs).memory.number_lines t).seq[j]? = some v →
      (v ≠ -1 ↔ xs[xs.indexOf t + j]? = some t) := by
  induction xs using List.reverseRecOn with
  | nil => simp at ht
  | append_singleton xs x ih =>
    have hrange' : ∀ y ∈ xs, y < SYMBOL_RANGE := fun y hy => hrange y (by simp [hy])
    have hmono := update_count_mono (record_all zs xs) x t
    rw [record_all_snoc] at hcap ⊢
    have hcap' : ((record_all zs xs).memory.number_lines t).count ≤ MAX_PLACES :=
      le_trans hmono hcap
    by_cases hm : t ∈ xs
    · have ih' := ih hrange' hm hcap'
      have hd := run_count_dense zs xs t hzs hrange' hm
      have hpos := (run_count_pos_iff zs xs t).mpr hm
      have ht' : t < SYMBOL_RANGE := hrange' t hm
      have hlen : ((record_all zs xs).memory.number_lines t).seq.length =
          ((record_all zs xs).memory.number_lines t).count := by
        rw [seq_length]
        exact Nat.min_eq_left hcap'
      have hcount : ((update_memory_space (record_all zs xs) x).memory.number_lines t).count =
          ((record_all zs xs).memory.number_lines t).count + 1 := by
        rw [update_count, record_all_flag]
        by_cases htx : t = x
        · simp [htx]
        · simp [htx, ht', hpos, hzs]
      have hroom : ((record_all zs xs).memory.number_lines t).count < MAX_PLACES := by omega
      have hseq : ∃ g : Int, (g ≠ -1 ↔ x = t) ∧
          ((update_memory_space (record_all zs xs) x).memory.number_lines t).seq =
            ((record_all zs xs).memory.number_lines t).seq ++ [g] := by
        by_cases htx : t = x
        · subst htx
          have hb : last_step (occurrence_steps xs t) < (xs.length : Int) :=
            last_step_lt _ _ (fun p hp => occurrence_steps_lt xs t p hp)
          refine ⟨(if ((record_all zs xs).memory.number_lines t).last_position = -1 then 0
            else (record_all zs xs).memory.current_step -
              ((record_all zs xs).memory.number_lines t).last_position), ?_, ?_⟩
          · rw [run_last_position, record_all_step]
            constructor
            · intro _
              rfl
            · intro _
              split_ifs <;> omega
          · rw [update_line_self,
              push_seq _ _ (by rw [count_with_last_position]; exact hroom),
              seq_with_last_position]
        · refine ⟨-1, ?_, ?_⟩
          · constructor
            · intro h
              exact absurd rfl h
            · intro h
              exact absurd h.symm htx
          · rw [update_line_other _ _ _ htx, record_all_flag, if_pos ⟨ht', hpos, hzs⟩,
              push_seq _ _ hroom]
      obtain ⟨g, hg, hs⟩ := hseq
      intro j v hv
      rw [hs] at hv
      rw [List.indexOf_append_of_mem hm]
      by_cases hj : j < ((record_all zs xs).memory.number_lines t).seq.length
      · rw [List.getElem?_append_left hj] at hv
        rw [List.getElem?_append_left (by omega)]
        exact ih' j v hv
      · rw [List.getElem?_append_right (by omega)] at hv
        have hidx : j - ((record_all zs xs).memory.number_lines t).seq.length = 0 := by
          by_contra hne
          rw [List.getElem?_eq_none (by simp; omega)] at hv
          simp at hv
        rw [hidx] at hv
        simp at hv
        subst hv
        have hpos' : List.indexOf t xs + j = xs.length := by omega
        rw [hpos', List.getElem?_append_right (le_refl _)]
        simp only [Nat.sub_self, List.getElem?_cons_zero, Option.some.injEq]
        exact hg
    · have hx : t = x := by
        rcases List.mem_append.mp ht with h | h
        · exact absurd h hm
        · simpa using h
      subst hx
      have hc : ((record_all zs xs).memory.number_lines t).count = 0 := by
        have := (run_count_pos_iff zs xs t).not.mpr hm
        omega
      have hlp : ((record_all zs xs).memory.number_lines t).last_position = -1 :=
        (run_unseen_iff zs xs t).mpr hm
      intro j v hv
      rw [update_line_self, hlp, push_seq _ _ (by rw [count_with_last_position, hc]; decide),
        seq_with_last_position, seq_eq_nil_of_count _ hc] at hv
      rw [List.indexOf_append_of_not_mem hm]
      cases j with
      | zero =>
        simp at hv
        subst hv
        simp
      | succ j => simp at hv

/-- The pattern of a dense sequence, for the bytes `0..127`: with zero streaming
enabled, in a run over such bytes in which no sequence outgrows its array,
every call is defined and the sequence of a tracked symbol first seen at step
`f` has length
`current_step - f`, and its entry at index `j` is a gap (not `-1`) exactly when
the symbol is the input of step `f + j`. -/
theorem dense_sequence_pattern (zs : Int) (input : List Nat) (t : Nat) (hzs : zs ≠ 0)
    (hascii : ∀ x ∈ input, x < 128) (hcap : within_capacity (record_all zs input))
    (ht : t ∈ input) :
    run_defined zs input ∧
    (((record_all zs input).memory.number_lines t).seq.length : Int) =
        (record_all zs input).memory.current_step - (input.indexOf t : Int) ∧
      ∀ (j : Nat) (v : Int), ((record_all zs input).memory.number_lines t).seq[j]? = some v →
        (v ≠ -1 ↔ input[input.indexOf t + j]? = some t) := by
  have hrange : ∀ x ∈ input, x < SYMBOL_RANGE := fun x hx =>
    lt_trans (hascii x hx) (by decide)
  have hc := hcap t (hrange t ht)
  have hd := run_count_dense zs input t hzs hrange ht
  refine ⟨run_defined_of_capacity zs input hascii hcap, ?_,
    run_seq_pattern zs input t hzs hrange ht hc⟩
  rw [record_all_step, seq_length, Nat.min_eq_left hc]
  omega

/-- In `"aabca"` the symbol `'b'` is first seen at step 2; its
sequence has length `5 - 2`, the entry at index 0 is a gap (step 2 is `'b'`) and
the entry at index 1 is `-1` (step 3 is `'c'`). -/
theorem dense_sequence_pattern_witness :
    (1 : Int) ≠ 0 ∧ (∀ x ∈ [97, 97, 98, 99, 97], x < 128) ∧
    within_capacity (record_all 1 [97, 97, 98, 99, 97]) ∧ 98 ∈ [97, 97, 98, 99, 97] ∧
    (((record_all 1 [97, 97, 98, 99, 97]).memory.number_lines 98).seq.length : Int) = 5 - 2 ∧
    ((record_all 1 [97, 97, 98, 99, 97]).memory.number_lines 98).seq[1]? = some (-1) ∧
    ¬ ([97, 97, 98, 99, 97][List.indexOf 98 [97, 97, 98, 99, 97] + 1]? = some 98) := by
  have hzs : (1 : Int) ≠ 0 := by decide
  have hrange : ∀ x ∈ [97, 97, 98, 99, 97], x < 128 := by decide
  have hcap : within_capacity (record_all 1 [97, 97, 98, 99, 97]) :=
    within_capacity_of_length 1 _ (by decide)
  have hmem : 98 ∈ [97, 97, 98, 99, 97] := by decide
  have h := (dense_sequence_pattern 1 [97, 97, 98, 99, 97] 98 hzs hrange hcap hmem).2
  have hidx : List.indexOf 98 [97, 97, 98, 99, 97] = 2 := by decide
  have hseq : ((record_all 1 [97, 97, 98, 99, 97]).memory.number_lines 98).seq = [0, -1, -1] := by
    simp only [record_all, List.foldl_cons, List.foldl_nil, update_line, update_step, update_flag]
    simp [initial_encoder, initialize_memory_space, NumberLine.push, SYMBOL_RANGE, NumberLine.seq,
      MAX_PLACES, store]
    decide
  have h1 : ((record_all 1 [97, 97, 98, 99, 97]).memory.number_lines 98).seq[1]? = some (-1) := by
    rw [hseq]
    rfl
  refine ⟨hzs, hrange, hcap, hmem, ?_, h1, ?_⟩
  · rw [h.1, record_all_step, hidx]
    rfl
  · intro hin
    exact ((h.2 1 (-1) h1).mpr hin) rfl

theorem run_order_mem (zs : Int) (xs : List Nat) (hrange : ∀ x ∈ xs, x < SYMBOL_RANGE)
    (i : Nat) : (i : Int) ∈ (record_all zs xs).memory.order ↔ i ∈ xs := by
  have hinj : Function.Injective (fun p : Nat => (p : Int)) := fun a b h => by simpa using h
  rw [(run_order zs xs hrange).1, List.mem_map_of_injective hinj, mem_distinct_symbols]

theorem run_tracked_count (zs : Int) (xs : List Nat) (hrange : ∀ x ∈ xs, x < SYMBOL_RANGE) :
    ((List.range SYMBOL_RANGE).filter
        (fun i => decide (0 < ((record_all zs xs).memory.number_lines i).count))).length =
      (distinct_symbols xs).length := by
  apply List.Perm.length_eq
  rw [List.perm_ext_iff_of_nodup ((List.nodup_range _).filter _) (nodup_distinct_symbols xs)]
  intro i
  rw [List.mem_filter, List.mem_range, decide_eq_true_eq, run_count_pos_iff, mem_distinct_symbols]
  constructor
  · exact fun h => h.2
  · exact fun h => ⟨hrange i h, h⟩

/-- The three views of a tracked symbol, for the bytes `0..127`: in every state
reached from `initialize_memory_space` by calls of `update_memory_space` for
such bytes in which no sequence outgrows its array, every call is defined and
for every symbol index `i` the three conditions
`count > 0`, `last_position != -1` and "`i` occurs in
`symbol_order[0..order_count)`" are equivalent; `order_count` is the number of
such symbols and at most 256; each of them has
`0 <= last_position < current_step`; and for every further call that is
defined, recording `s`, the test of the placeholder loop, `count > 0 && i != symbol_index`, made after the
branch for `s`, holds exactly for the tracked symbols other than `s`. -/
theorem tracked_views_agree (zs : Int) (input : List Nat) (i : Nat)
    (hascii : ∀ x ∈ input, x < 128) (hcap : within_capacity (record_all zs input))
    (hi : i < SYMBOL_RANGE) :
    run_defined zs input ∧
    (0 < ((record_all zs input).memory.number_lines i).count ↔
        ((record_all zs input).memory.number_lines i).last_position ≠ -1) ∧
      (((record_all zs input).memory.number_lines i).last_position ≠ -1 ↔
        (i : Int) ∈ (record_all zs input).memory.order) ∧
      (record_all zs input).memory.order_count =
        ((List.range SYMBOL_RANGE).filter
          (fun k => decide (0 < ((record_all zs input).memory.number_lines k).count))).length ∧
      (record_all zs input).memory.order_count ≤ 256 ∧
      (0 < ((record_all zs input).memory.number_lines i).count →
        0 ≤ ((record_all zs input).memory.number_lines i).last_position ∧
        ((record_all zs input).memory.number_lines i).last_position <
          (record_all zs input).memory.current_step) ∧
      ∀ s, update_defined (record_all zs input) s →
        ((0 < ((record_symbol (record_all zs input).memory s).number_lines i).count ∧ i ≠ s) ↔
          ((i : Int) ∈ (record_all zs input).memory.order ∧ i ≠ s)) := by
  have hrange : ∀ x ∈ input, x < SYMBOL_RANGE := fun x hx =>
    lt_trans (hascii x hx) (by decide)
  have hcount := run_count_pos_iff zs input i
  have hlp := run_unseen_iff zs input i
  have hord := run_order_mem zs input hrange i
  have hoc := (run_order zs input hrange).2
  refine ⟨run_defined_of_capacity zs input hascii hcap, ?_, ?_, ?_, ?_, ?_, ?_⟩
  · rw [hcount, Ne, hlp]
    exact not_not.symm
  · rw [Ne, hlp, hord]
    exact not_not
  · rw [hoc, run_tracked_count zs input hrange]
  · rw [hoc]
    exact distinct_symbols_length_le input hrange
  · intro hpos
    have hm := hcount.mp hpos
    have hne : occurrence_steps input i ≠ [] := fun h0 =>
      (occurrence_steps_eq_nil input i).mp h0 hm
    rw [run_last_position, record_all_step]
    exact ⟨last_step_nonneg _ hne,
      last_step_lt _ _ (fun p hp => occurrence_steps_lt input i p hp)⟩
  · intro s _
    constructor
    · rintro ⟨hpos, hne⟩
      rw [record_symbol_line_other _ _ _ hne] at hpos
      exact ⟨hord.mpr (hcount.mp hpos), hne⟩
    · rintro ⟨hmem, hne⟩
      rw [record_symbol_line_other _ _ _ hne]
      exact ⟨hcount.mpr (hord.mp hmem), hne⟩

/-- After `"aabca"` the symbol `'b'` is tracked in all three
views, three symbols are tracked, and its last position 2 lies below the
current step 5. -/
theorem tracked_views_agree_witness :
    (∀ x ∈ [97, 97, 98, 99, 97], x < 128) ∧ 98 < SYMBOL_RANGE ∧
    0 < ((record_all 0 [97, 97, 98, 99, 97]).memory.number_lines 98).count ∧
    ((record_all 0 [97, 97, 98, 99, 97]).memory.number_lines 98).last_position ≠ -1 ∧
    (98 : Int) ∈ (record_all 0 [97, 97, 98, 99, 97]).memory.order ∧
    (record_all 0 [97, 97, 98, 99, 97]).memory.order_count = 3 ∧
    ((record_all 0 [97, 97, 98, 99, 97]).memory.number_lines 98).last_position <
      (record_all 0 [97, 97, 98, 99, 97]).memory.current_step := by
  have hascii : ∀ x ∈ [97, 97, 98, 99, 97], x < 128 := by decide
  have hrange : ∀ x ∈ [97, 97, 98, 99, 97], x < SYMBOL_RANGE := by decide
  have hi : 98 < SYMBOL_RANGE := by decide
  have h := (tracked_views_agree 0 [97, 97, 98, 99, 97] 98 hascii
    (within_capacity_of_length 0 _ (by decide)) hi).2
  have hpos : 0 < ((record_all 0 [97, 97, 98, 99, 97]).memory.number_lines 98).count :=
    (run_count_pos_iff 0 _ 98).mpr (by decide)
  have hlp := h.1.mp hpos
  have hoc : (record_all 0 [97, 97, 98, 99, 97]).memory.order_count = 3 := by
    rw [(run_order 0 _ hrange).2]
    decide
  exact ⟨hascii, hi, hpos, hlp, h.2.1.mp hlp, hoc, (h.2.2.2.2.1 hpos).2⟩

/-! ## The run that fills a number line

With zero streaming enabled, `'b'` followed by 1999 times `'a'` fills the
number line of `'b'`: one gap and 1999 placeholders.  Every call up to there is
defined.  The next `'a'` stores the placeholder of `'b'` at
`values[MAX_PLACES]`, which in the struct `NumberLine` is the word of
`last_position`. -/

theorem full_line_ascii : ∀ x ∈ 98 :: List.replicate 1999 97, x < 128 := by
  intro x hx
  rcases List.mem_cons.mp hx with h | h
  · rw [h]
    decide
  · rw [(List.mem_replicate.mp h).2]
    decide

theorem full_line_defined : run_defined 1 (98 :: List.replicate 1999 97) := by
  apply run_defined_of_capacity 1 _ full_line_ascii
  apply within_capacity_of_length
  rw [List.length_cons, List.length_replicate]
  decide

theorem full_line_count :
    ((record_all 1 (98 :: List.replicate 1999 97)).memory.number_lines 98).count =
      MAX_PLACES := by
  have hrange : ∀ x ∈ 98 :: List.replicate 1999 97, x < SYMBOL_RANGE := fun x hx =>
    lt_trans (full_line_ascii x hx) (by decide)
  have hd := run_count_dense 1 (98 :: List.replicate 1999 97) 98 (by decide) hrange
    (List.mem_cons_self _ _)
  rw [List.indexOf_cons_self, List.length_cons, List.length_replicate] at hd
  simp only [MAX_PLACES]
  omega

theorem full_line_undefined :
    ¬ update_defined (record_all 1 (98 :: List.replicate 1999 97)) 97 := by
  intro hdef
  have hzs : (record_all 1 (98 :: List.replicate 1999 97)).allow_zero_streaming ≠ 0 := by
    rw [record_all_flag]
    decide
  have h := hdef.2.2.2.1 hzs 98 (by decide) (by decide)
    (by rw [full_line_count]; decide)
  rw [full_line_count] at h
  exact Nat.lt_irrefl _ h

/-- C7, the behaviour of the code at the input `'b'`, 2000 times `'a'`, `'b'`
with zero streaming enabled.  After `'b'` and 1999 times `'a'`, all defined
calls, `symbol_order` holds `'b'` once, without duplicates, the number line of
`'b'` is tracked (`last_position` is not `-1`) and holds `MAX_PLACES` entries.
The call for the next `'a'` is not defined: its placeholder for `'b'` is stored
at `values[MAX_PLACES]`, the word of `last_position`, so that the `'b'` that
follows is taken for unseen and appended to `symbol_order` again. -/
theorem symbol_order_at_full_line :
    run_defined 1 (98 :: List.replicate 1999 97) ∧
    (98 : Int) ∈ (record_all 1 (98 :: List.replicate 1999 97)).memory.order ∧
    (record_all 1 (98 :: List.replicate 1999 97)).memory.order.Nodup ∧
    ((record_all 1 (98 :: List.replicate 1999 97)).memory.number_lines 98).last_position ≠ -1 ∧
    ((record_all 1 (98 :: List.replicate 1999 97)).memory.number_lines 98).count = MAX_PLACES ∧
    ¬ update_defined (record_all 1 (98 :: List.replicate 1999 97)) 97 := by
  have hrange : ∀ x ∈ 98 :: List.replicate 1999 97, x < SYMBOL_RANGE := fun x hx =>
    lt_trans (full_line_ascii x hx) (by decide)
  have hinj : Function.Injective (fun p : Nat => (p : Int)) := fun a b h => by simpa using h
  refine ⟨full_line_defined, ?_, ?_, ?_, full_line_count, full_line_undefined⟩
  · exact (run_order_mem 1 _ hrange 98).mpr (List.mem_cons_self _ _)
  · rw [(run_order 1 _ hrange).1]
    exact (nodup_distinct_symbols _).map hinj
  · intro h
    exact (run_unseen_iff 1 _ 98).mp h (List.mem_cons_self _ _)

/-- C20, the behaviour of the code at the input `'b'`, 2000 times `'a'` with
zero streaming enabled.  The run is not a run of defined calls: the last `'a'`
finds the number line of `'b'` full, raises its `count` to `MAX_PLACES + 1` and
stores its placeholder `-1` at `values[MAX_PLACES]`, the word of
`last_position`; `count > 0` then stands against `last_position == -1`. -/
theorem tracked_views_at_full_line :
    ¬ run_defined 1 (98 :: List.replicate 2000 97) ∧
    ((record_all 1 (98 :: List.replicate 2000 97)).memory.number_lines 98).count =
      MAX_PLACES + 1 ∧
    0 < ((record_all 1 (98 :: List.replicate 2000 97)).memory.number_lines 98).count := by
  have hrange : ∀ x ∈ 98 :: List.replicate 2000 97, x < SYMBOL_RANGE := by
    intro x hx
    rcases List.mem_cons.mp hx with h | h
    · rw [h]
      decide
    · rw [(List.mem_replicate.mp h).2]
      decide
  have hd := run_count_dense 1 (98 :: List.replicate 2000 97) 98 (by decide) hrange
    (List.mem_cons_self _ _)
  rw [List.indexOf_cons_self, List.length_cons, List.length_replicate] at hd
  have hcount : ((record_all 1 (98 :: List.replicate 2000 97)).memory.number_lines 98).count =
      MAX_PLACES + 1 := by
    simp only [MAX_PLACES]
    omega
  refine ⟨?_, hcount, ?_⟩
  · intro h
    have hget : (98 :: List.replicate 2000 97)[2000]? = some 97 := by
      rw [List.getElem?_cons_succ, List.getElem?_replicate]
      rfl
    have htake : List.take 2000 (98 :: List.replicate 2000 97) =
        98 :: List.replicate 1999 97 := by
      rw [List.take_succ_cons, List.take_replicate]
      rfl
    have hdef := h 2000 97 hget
    rw [htake] at hdef
    exact full_line_undefined hdef
  · rw [hcount]
    exact Nat.succ_pos _

end MRComplex
